import Mathlib

/-!
# MapLink: typed tree pattern matching, rewriting and mapping

A shallow embedding of `opencog/atoms/core/MapLink.cc` (`MapLink::extract`,
`MapLink::rewrite_one`, `MapLink::execute`) together with theorems about it.

Conventions of the embedding:

* an atom is a tree: a node (type code and name) or a link (type code and
  outgoing set); `Handle` equality is equality of the atoms denoted;
* a `Handle` may be undefined (`Handle::UNDEFINED`), so it is an `Option Atom`;
* the `std::map<Handle,Handle>` filled by `extract` is an association list in
  insertion order, read with `List.lookup`; `extract` returns the boolean
  together with the map in the state the call leaves it;
* a function that can read outside a vector returns an `Option`, whose `none`
  stands for that read (no defined result);
* the `scratch` atomspace argument is only passed along by the source and is
  left out.
-/

namespace MapLinkSpec

/-! ## Atoms -/

/-- Atom type codes (`Type`, an unsigned short in the source). The class
server splits the codes into node types and link types, and the constructors
of `Node` and `Link` refuse a code of the other kind; the split is kept in the
code itself. -/
inductive AType where
  | node (code : Nat)
  | link (code : Nat)
deriving DecidableEq

/-- An atom: a node with a name, or a link with an ordered outgoing set. The
number is the code of its node type, respectively of its link type. -/
inductive Atom where
  | node (code : Nat) (name : String)
  | link (code : Nat) (out : List Atom)

mutual
/-- Decision procedure for equality of atoms. -/
def Atom.decEq : (a b : Atom) → Decidable (a = b)
  | .node t n, .node t2 n2 =>
    if h : t = t2 ∧ n = n2 then isTrue (by rw [h.1, h.2])
    else isFalse (fun e => h (by cases e; exact ⟨rfl, rfl⟩))
  | .node _ _, .link _ _ => isFalse (fun e => by cases e)
  | .link _ _, .node _ _ => isFalse (fun e => by cases e)
  | .link t o, .link t2 o2 =>
    match Atom.decEqList o o2 with
    | isTrue ho =>
      if h : t = t2 then isTrue (by rw [h, ho])
      else isFalse (fun e => h (by cases e; rfl))
    | isFalse ho => isFalse (fun e => ho (by cases e; rfl))
/-- Decision procedure for equality of outgoing sets. -/
def Atom.decEqList : (as bs : List Atom) → Decidable (as = bs)
  | [], [] => isTrue rfl
  | [], _ :: _ => isFalse (fun e => by cases e)
  | _ :: _, [] => isFalse (fun e => by cases e)
  | a :: as, b :: bs =>
    match Atom.decEq a b with
    | isTrue h =>
      match Atom.decEqList as bs with
      | isTrue hs => isTrue (by rw [h, hs])
      | isFalse hs => isFalse (fun e => hs (by cases e; rfl))
    | isFalse h => isFalse (fun e => h (by cases e; rfl))
end

instance : DecidableEq Atom := Atom.decEq

/-- The type code of an atom (`Atom::getType`). -/
def Atom.getType : Atom → AType
  | .node c _ => .node c
  | .link c _ => .link c

/-- Whether the atom is a link (`Atom::isLink`). -/
def Atom.isLink : Atom → Bool
  | .node _ _ => false
  | .link _ _ => true

/-- The outgoing set of an atom (`getOutgoingSet`); a node has none. -/
def Atom.getOutgoingSet : Atom → List Atom
  | .node _ _ => []
  | .link _ out => out

/-- A possibly undefined reference to an atom; `none` is `Handle::UNDEFINED`. -/
abbrev Handle := Option Atom

/-- The undefined handle. -/
def Handle.UNDEFINED : Handle := none

/-- Modelled from the spec: the generated header `atom_types.h` is not part of
the sources, so the code of the variable node type is chosen here; the matcher
only compares type codes for equality. -/
def VARIABLE_NODE : AType := .node 1

/-- Modelled from the spec: the code of the disjunctive alternative link type
(`atom_types.h` is absent). -/
def CHOICE_LINK : AType := .link 2

/-- Modelled from the spec: the code of the ordered sequence link type
(`atom_types.h` is absent). -/
def LIST_LINK : AType := .link 3

/-- Modelled from the spec: the code of the unordered collection link type
(`atom_types.h` is absent). -/
def SET_LINK : AType := .link 4

/-! ## Scope and groundings -/

/-- The `Variables` of a scope, as far as `MapLink` consumes them. The bodies
of `is_type` and `substitute_nocheck` live outside `MapLink.cc`; they are
taken as given functions. -/
structure Variables where
  /-- The declared variables, in declaration order. -/
  varseq : List Atom
  /-- The declared variables as a set, queried through `count`. -/
  varset : List Atom
  /-- The type predicate `is_type(variable, candidate)`. -/
  is_type : Atom → Atom → Bool
  /-- Positional substitution of a value tuple into a term, no type check. -/
  substitute_nocheck : Handle → List Handle → Handle

/-- The grounding `std::map<Handle,Handle>`: variable to value. -/
abbrev ValMap := List (Atom × Atom)

/-- The lookup `valmap.find(key)`; `none` is `valmap.end()`. -/
def ValMap.find (valmap : ValMap) (key : Atom) : Option Atom :=
  valmap.lookup key

/-- The insertion `valmap.emplace(key, val)`: a key already present keeps its
value. -/
def ValMap.emplace (valmap : ValMap) (key val : Atom) : ValMap :=
  match valmap.find key with
  | some _ => valmap
  | none => valmap ++ [(key, val)]

/-- The test `VARIABLE_NODE == t and 0 < _varset->count(termpat)`. -/
def isDeclared (vars : Variables) (termpat : Atom) : Bool :=
  decide (termpat.getType = VARIABLE_NODE) && decide (0 < vars.varset.count termpat)

/-! ## The matcher -/

/-- The variable branch of `extract`: a bound variable must be bound to
`ground`; an unbound one is type-checked and recorded. -/
def extractVariable (vars : Variables) (termpat ground : Atom)
    (valmap : ValMap) : Bool × ValMap :=
  match valmap.find termpat with
  | some val => (decide (val = ground), valmap)
  | none =>
    if !vars.is_type termpat ground then (false, valmap)
    else (true, valmap.emplace termpat ground)

mutual
/-- The matcher `MapLink::extract(termpat, ground, valmap)`: the returned pair
is the boolean result and `valmap` as the call leaves it. -/
def extract (vars : Variables) : Atom → Atom → ValMap → Bool × ValMap
  | termpat, ground, valmap =>
    if termpat = ground then (true, valmap)
    else if isDeclared vars termpat then extractVariable vars termpat ground valmap
    else
      match termpat with
      | .node c _ =>
        -- a node has an empty outgoing set: the loop over choices does not run
        if AType.node c = CHOICE_LINK then (false, valmap)
        else if AType.node c ≠ ground.getType then (false, valmap)
        else (decide (termpat = ground), valmap)
      | .link c tlo =>
        if AType.link c = CHOICE_LINK then extractChoice vars tlo ground valmap
        else if AType.link c ≠ ground.getType then (false, valmap)
        else
          let glo := ground.getOutgoingSet
          if glo.length ≠ tlo.length then (false, valmap)
          else extractSeq vars tlo glo valmap
/-- The loop over the alternatives of a `ChoiceLink`: every alternative is
handed the same `valmap` object. -/
def extractChoice (vars : Variables) : List Atom → Atom → ValMap → Bool × ValMap
  | [], _, valmap => (false, valmap)
  | choice :: rest, ground, valmap =>
    let r := extract vars choice ground valmap
    if r.1 then (true, r.2)
    else extractChoice vars rest ground r.2
/-- The side-by-side loop over `tlo[i]`, `glo[i]`; it is entered with outgoing
sets of equal size. -/
def extractSeq (vars : Variables) : List Atom → List Atom → ValMap → Bool × ValMap
  | [], _, valmap => (true, valmap)
  | _ :: _, [], valmap => (false, valmap)
  | p :: ps, g :: gs, valmap =>
    let r := extract vars p g valmap
    if !r.1 then (false, r.2)
    else extractSeq vars ps gs r.2
end

/-! ## The rewriter -/

/-- The declaration held by a `MapLink` after `init`. -/
structure MapLink where
  /-- The body of the scope, `_pattern->get_body()`. -/
  body : Atom
  /-- The variables of the scope, `&_pattern->get_variables()`; the source
  also keeps `_varset = &_vars->varset`. -/
  _vars : Variables
  /-- Whether the scope is an `ImplicationLink`. -/
  _is_impl : Bool
  /-- The rewrite target; undefined unless `init` assigns it. -/
  _rewrite : Handle

/-- The loop of `rewrite_one` over `varseq`: it appends one slot per variable
to `valseq` and raises the flag when a variable has no value. -/
def collectValues (valmap : ValMap) : List Atom → Bool × List Handle → Bool × List Handle
  | [], acc => acc
  | var :: rest, (ungrounded, valseq) =>
    match valmap.find var with
    | none => collectValues valmap rest (true, valseq ++ [Handle.UNDEFINED])
    | some val => collectValues valmap rest (ungrounded, valseq ++ [some val])

/-- The defined atoms of a sequence of handles, when all are defined. -/
def definedSeq : List Handle → Option (List Atom)
  | [] => some []
  | none :: _ => none
  | some a :: rest => (definedSeq rest).map (fun as => a :: as)

/-- The constructor `createLink(t, oset)`. A link over an undefined handle, or
with a node type code, is not an atom of this model: the result is then
`none`. -/
def createLink (t : AType) (oset : List Handle) : Option Atom :=
  match t with
  | .node _ => none
  | .link c => (definedSeq oset).map (Atom.link c)

/-- The rewriter `MapLink::rewrite_one(term)`. The result `some h` is the
returned handle `h`; `none` stands for the read `valseq[0]` of an empty
`valseq`. -/
def rewrite_one (M : MapLink) (term : Atom) : Option Handle :=
  let r := extract M._vars M.body term []
  if !r.1 then some Handle.UNDEFINED
  else
    let s := collectValues r.2 M._vars.varseq (false, [])
    if M._is_impl then some (M._vars.substitute_nocheck M._rewrite s.2)
    else if s.1 then some Handle.UNDEFINED
    else if 1 < s.2.length then (createLink LIST_LINK s.2).map some
    else s.2[0]?

/-! ## The mapper -/

/-- The loop of `execute` over the outgoing set of the input: defined results
are appended to `remap`. -/
def remapLoop (M : MapLink) : List Atom → List Atom → Option (List Atom)
  | [], remap => some remap
  | h :: rest, remap =>
    match rewrite_one M h with
    | none => none
    | some none => remapLoop M rest remap
    | some (some mone) => remapLoop M rest (remap ++ [mone])

/-- The mapper `MapLink::execute`, with `valh` the input `_outgoing[1]`. -/
def execute (M : MapLink) (valh : Atom) : Option Handle :=
  let argtype := valh.getType
  if argtype = SET_LINK ∨ argtype = LIST_LINK then
    (remapLoop M valh.getOutgoingSet []).bind
      (fun remap => (createLink argtype (remap.map some)).map some)
  else rewrite_one M valh

/-! ## Positions and pattern shapes -/

mutual
/-- The sub-term of an atom at a position, a path of child indices from the
root. -/
def subterm : Atom → List Nat → Option Atom
  | a, [] => some a
  | .node _ _, _ :: _ => none
  | .link _ out, i :: p => subtermAt out i p
/-- The sub-term at position `p` below the `i`-th atom of a sequence. -/
def subtermAt : List Atom → Nat → List Nat → Option Atom
  | [], _, _ => none
  | a :: _, 0, p => subterm a p
  | _ :: as, i + 1, p => subtermAt as i p
end

mutual
/-- No atom of the pattern carries the disjunctive alternative type. -/
def choiceFree : Atom → Bool
  | .node c _ => decide (AType.node c ≠ CHOICE_LINK)
  | .link c out => decide (AType.link c ≠ CHOICE_LINK) && choiceFreeSeq out
/-- No atom of the sequence carries the disjunctive alternative type. -/
def choiceFreeSeq : List Atom → Bool
  | [] => true
  | a :: as => choiceFree a && choiceFreeSeq as
end

/-! ## Construction -/

/-- Modelled from the spec: the code of the scope link type (`atom_types.h`
is absent). -/
def SCOPE_LINK : AType := .link 5

/-- Modelled from the spec: the code of the implication link type
(`atom_types.h` is absent). -/
def IMPLICATION_LINK : AType := .link 6

/-- What `MapLink::init` consumes from classes outside `MapLink.cc`: the
subtype test of the class server, and the body and the variables that the
scope link object of an atom holds. They are taken as given functions. -/
structure Host where
  /-- The subtype test `classserver().isA(t, ancestor)`. -/
  isA : AType → AType → Bool
  /-- The body `ScopeLinkCast(h)->get_body()`. -/
  get_body : Atom → Atom
  /-- The variables `ScopeLinkCast(h)->get_variables()`. -/
  get_variables : Atom → Variables

/-- The `SyntaxException`s thrown by `MapLink::init`, one per `throw`. -/
inductive SyntaxException where
  | arity2
  | notScope
  | implication2
  | implication3
deriving DecidableEq

/-- Modelled from the spec: `FunctionLink::init`, which `MapLink::init` calls
last, is outside the sources; the specification lists no construction error
beyond those of `MapLink::init`, so it returns normally. -/
def FunctionLink_init (_outgoing : List Atom) : Except SyntaxException Unit :=
  .ok ()

/-- The initialisation `MapLink::init` over the outgoing set of the map link:
the declaration built, or the exception thrown. -/
def init (H : Host) (_outgoing : List Atom) : Except SyntaxException MapLink :=
  if 2 ≠ _outgoing.length then .error .arity2
  else
    match _outgoing with
    | scope :: _ =>
      let tscope := scope.getType
      if !H.isA tscope SCOPE_LINK then .error .notScope
      else
        let body := H.get_body scope
        let vars := H.get_variables scope
        if H.isA tscope IMPLICATION_LINK then
          let impl := scope.getOutgoingSet
          if impl.length < 2 then .error .implication2
          else if some body = impl[0]? then
            (FunctionLink_init _outgoing).map (fun _ =>
              { body := body, _vars := vars, _is_impl := true, _rewrite := impl[1]? })
          else if some body = impl[1]? then
            if impl.length < 3 then .error .implication3
            else
              (FunctionLink_init _outgoing).map (fun _ =>
                { body := body, _vars := vars, _is_impl := true, _rewrite := impl[2]? })
          else
            (FunctionLink_init _outgoing).map (fun _ =>
              { body := body, _vars := vars, _is_impl := true,
                _rewrite := Handle.UNDEFINED })
        else
          (FunctionLink_init _outgoing).map (fun _ =>
            { body := body, _vars := vars, _is_impl := false,
              _rewrite := Handle.UNDEFINED })
    | [] => .error .arity2

/-- Whether the construction threw. -/
def raised (r : Except SyntaxException MapLink) : Bool :=
  match r with
  | .error _ => true
  | .ok _ => false

/-! ## Substitution -/

/-- The value that a tuple holds at the position of `term` in `varseq`, if
`term` is one of the variables. -/
def valueAt : List Atom → List Handle → Atom → Option Handle
  | v :: vs, h :: hs, term => if v = term then some h else valueAt vs hs term
  | _, _, _ => none

mutual
/-- Modelled from the spec: `Variables::substitute_nocheck` is outside the
sources; the specification describes it as the positional replacement of
`varseq[i]` by the `i`-th value of the tuple. A term that mentions a variable
whose slot is undefined has no defined result. -/
def substituteTerm (varseq : List Atom) (vals : List Handle) : Atom → Handle
  | .node c n =>
    match valueAt varseq vals (.node c n) with
    | some h => h
    | none => some (.node c n)
  | .link c out => (substituteSeq varseq vals out).map (Atom.link c)
/-- The substitution into the atoms of an outgoing set. -/
def substituteSeq (varseq : List Atom) (vals : List Handle) : List Atom → Option (List Atom)
  | [] => some []
  | a :: as =>
    match substituteTerm varseq vals a, substituteSeq varseq vals as with
    | some b, some bs => some (b :: bs)
    | _, _ => none
end

/-- Modelled from the spec: the positional substitution as the function
`substitute_nocheck(term, values)` of a scope with the given `varseq`. -/
def substitutePositional (varseq : List Atom) (term : Handle) (vals : List Handle) : Handle :=
  term.bind (substituteTerm varseq vals)

/-! ## Groundings as substitutions -/

mutual
/-- The pattern with every declared variable that the grounding binds
replaced by its value. -/
def applyGrounding (vars : Variables) (m : ValMap) : Atom → Atom
  | .node c n =>
    if isDeclared vars (.node c n) then
      match m.find (.node c n) with
      | some val => val
      | none => .node c n
    else .node c n
  | .link c out => .link c (applyGroundingSeq vars m out)
/-- The replacement in the atoms of an outgoing set. -/
def applyGroundingSeq (vars : Variables) (m : ValMap) : List Atom → List Atom
  | [] => []
  | a :: as => applyGrounding vars m a :: applyGroundingSeq vars m as
end

mutual
/-- The pattern with every declared variable `v` replaced by `s v`. -/
def applyAssignment (vars : Variables) (s : Atom → Atom) : Atom → Atom
  | .node c n => if isDeclared vars (.node c n) then s (.node c n) else .node c n
  | .link c out => .link c (applyAssignmentSeq vars s out)
/-- The replacement in the atoms of an outgoing set. -/
def applyAssignmentSeq (vars : Variables) (s : Atom → Atom) : List Atom → List Atom
  | [] => []
  | a :: as => applyAssignment vars s a :: applyAssignmentSeq vars s as
end

mutual
/-- Whether the atom `v` occurs in the atom. -/
def occursIn (v : Atom) : Atom → Bool
  | .node c n => decide (v = .node c n)
  | .link c out => decide (v = .link c out) || occursInSeq v out
/-- Whether the atom `v` occurs in an atom of the sequence. -/
def occursInSeq (v : Atom) : List Atom → Bool
  | [] => false
  | a :: as => occursIn v a || occursInSeq v as
end

mutual
/-- No declared variable of the scope occurs in the atom. -/
def variableFree (vars : Variables) : Atom → Bool
  | .node c n => !isDeclared vars (.node c n)
  | .link _ out => variableFreeSeq vars out
/-- No declared variable of the scope occurs in the sequence. -/
def variableFreeSeq (vars : Variables) : List Atom → Bool
  | [] => true
  | a :: as => variableFree vars a && variableFreeSeq vars as
end

mutual
/-- No atom strictly above the position `p` of the pattern, on the path from
the root, carries the disjunctive alternative type. -/
def choiceFreeAbove : Atom → List Nat → Bool
  | _, [] => true
  | .node _ _, _ :: _ => true
  | .link c out, i :: p =>
    decide (AType.link c ≠ CHOICE_LINK) && choiceFreeAboveAt out i p
/-- The same for the position `p` below the `i`-th atom of a sequence. -/
def choiceFreeAboveAt : List Atom → Nat → List Nat → Bool
  | [], _, _ => true
  | a :: _, 0, p => choiceFreeAbove a p
  | _ :: as, i + 1, p => choiceFreeAboveAt as i p
end

/-! ## Sample atoms -/

/-- The number node with the given name (a node type other than the variable
type). -/
def num (s : String) : Atom := .node 10 s

/-- The variable node with the given name; its type is `VARIABLE_NODE`. -/
def var (s : String) : Atom := .node 1 s

/-- A composite of some link type that is neither Choice, List nor Set. -/
def pair (out : List Atom) : Atom := .link 20 out

/-- A composite of another such link type. -/
def mismatch (out : List Atom) : Atom := .link 21 out

/-- A disjunctive alternative node; its type is `CHOICE_LINK`. -/
def choice (alts : List Atom) : Atom := .link 2 alts

/-- An ordered sequence node; its type is `LIST_LINK`. -/
def list (out : List Atom) : Atom := .link 3 out

/-- A scope declaring the given variables, every candidate accepted, its
substitution returning the target as it is. -/
def anyVars (vs : List Atom) : Variables :=
  { varseq := vs, varset := vs, is_type := fun _ _ => true,
    substitute_nocheck := fun t _ => t }

/-- A scope declaring the given variables, every candidate rejected. -/
def rejectVars (vs : List Atom) : Variables :=
  { varseq := vs, varset := vs, is_type := fun _ _ => false,
    substitute_nocheck := fun t _ => t }

/-- A scope declaring the given variables, which accept links only. -/
def linkVars (vs : List Atom) : Variables :=
  { varseq := vs, varset := vs, is_type := fun _ g => g.isLink,
    substitute_nocheck := fun t _ => t }

/-- The plain declaration `Scope({x, y}, pair(x, y))`. -/
def pairDecl : MapLink :=
  { body := pair [var "x", var "y"], _vars := anyVars [var "x", var "y"],
    _is_impl := false, _rewrite := Handle.UNDEFINED }

/-- The plain declaration `Scope({x}, pair(x, 1))`. -/
def unaryDecl : MapLink :=
  { body := pair [var "x", num "1"], _vars := anyVars [var "x"],
    _is_impl := false, _rewrite := Handle.UNDEFINED }

/-- The plain declaration `Scope({x, y}, pair(y, x))`, whose body meets the
variables in the order opposite to their declaration. -/
def swapDecl : MapLink :=
  { body := pair [var "y", var "x"], _vars := anyVars [var "x", var "y"],
    _is_impl := false, _rewrite := Handle.UNDEFINED }

/-- A plain declaration whose scope declares no variable, with body `5`. -/
def constDecl : MapLink :=
  { body := num "5", _vars := anyVars [],
    _is_impl := false, _rewrite := Handle.UNDEFINED }

/-- An implication-shaped declaration over `{x, y}` with body `pair(x, 1)`,
which leaves `y` ungrounded, and rewrite target `mismatch(x)`. -/
def implDecl : MapLink :=
  { body := pair [var "x", num "1"], _vars := anyVars [var "x", var "y"],
    _is_impl := true, _rewrite := some (mismatch [var "x"]) }

/-- An implication link; its type is `IMPLICATION_LINK`. -/
def implication (out : List Atom) : Atom := .link 6 out

/-- A scope link; its type is `SCOPE_LINK`. -/
def scope (out : List Atom) : Atom := .link 5 out

/-- A host in which the implication link type is a scope link type, the scope
of an atom declares `x`, and the body of a scope without a variable
declaration is its first outgoing atom. -/
def sampleHost : Host :=
  { isA := fun t ancestor =>
      decide (t = ancestor) ||
        (decide (t = IMPLICATION_LINK) && decide (ancestor = SCOPE_LINK)),
    get_body := fun h => (h.getOutgoingSet[0]?).getD h,
    get_variables := fun _ => anyVars [var "x"] }

/-- A lambda link, wrapping a variable declaration and a body. -/
def lambda (out : List Atom) : Atom := .link 7 out

/-- A host as `sampleHost`, for a scope whose first outgoing atom wraps the
body: the scope object reports the last atom of that wrapper as its body. -/
def wrappingHost : Host :=
  { isA := sampleHost.isA,
    get_body := fun h =>
      match h.getOutgoingSet with
      | w :: _ => (w.getOutgoingSet.getLast?).getD w
      | [] => h,
    get_variables := fun _ => anyVars [var "x"] }

/-- A scope declaring the given variables, every candidate accepted, with the
positional substitution. -/
def posVars (vs : List Atom) : Variables :=
  { varseq := vs, varset := vs, is_type := fun _ _ => true,
    substitute_nocheck := substitutePositional vs }

/-- The implication-shaped declaration `Scope({x}, pair(x))` with rewrite
target `mismatch(x)`. -/
def rewriteDecl : MapLink :=
  { body := pair [var "x"], _vars := posVars [var "x"],
    _is_impl := true, _rewrite := some (mismatch [var "x"]) }

/-- The implication-shaped declaration `Scope({x}, Choice(x))` with rewrite
target `mismatch(x)`. -/
def choiceDecl : MapLink :=
  { body := choice [var "x"], _vars := posVars [var "x"],
    _is_impl := true, _rewrite := some (mismatch [var "x"]) }

/-- An unordered collection node; its type is `SET_LINK`. -/
def setLink (out : List Atom) : Atom := .link 4 out

/-! ## Induction over atoms -/

mutual
/-- Induction over atoms: a property of every node, inherited by a link from
the atoms of its outgoing set, holds of every atom. -/
theorem Atom.induct {Q : Atom → Prop} (hn : ∀ c n, Q (.node c n))
    (hl : ∀ c out, (∀ a ∈ out, Q a) → Q (.link c out)) : (a : Atom) → Q a
  | .node c n => hn c n
  | .link c out => hl c out (Atom.induct_seq hn hl out)
/-- The companion of `Atom.induct` for the atoms of an outgoing set. -/
theorem Atom.induct_seq {Q : Atom → Prop} (hn : ∀ c n, Q (.node c n))
    (hl : ∀ c out, (∀ a ∈ out, Q a) → Q (.link c out)) :
    (as : List Atom) → ∀ a ∈ as, Q a
  | [] => fun _ h => absurd h (List.not_mem_nil _)
  | b :: bs => fun a h => by
    rcases List.mem_cons.mp h with h | h
    · rw [h]; exact Atom.induct hn hl b
    · exact Atom.induct_seq hn hl bs a h
end

/-- An insertion keeps every binding that is already in the map. -/
theorem find_emplace_of_find (m : ValMap) (k v key val : Atom)
    (h : m.find key = some val) : (m.emplace k v).find key = some val := by
  unfold ValMap.emplace
  cases hk : m.find k with
  | some _ => simpa using h
  | none =>
    simp only [ValMap.find] at h ⊢
    simp [List.lookup_append, h]

/-- The variable branch keeps every binding of the incoming grounding. -/
theorem extractVariable_keeps (vars : Variables) (P G : Atom) (m : ValMap)
    (key val : Atom) (h : m.find key = some val) :
    (extractVariable vars P G m).2.find key = some val := by
  unfold extractVariable
  cases hk : m.find P with
  | some _ => simpa using h
  | none =>
    by_cases ht : vars.is_type P G = true
    · simpa [ht] using find_emplace_of_find m P G key val h
    · simpa [ht] using h

/-- The loop over alternatives keeps every binding of the incoming grounding. -/
theorem extractChoice_keeps (vars : Variables) (alts : List Atom)
    (ih : ∀ a ∈ alts, ∀ G m key val, ValMap.find m key = some val →
      (extract vars a G m).2.find key = some val) :
    ∀ G m key val, ValMap.find m key = some val →
      (extractChoice vars alts G m).2.find key = some val := by
  induction alts with
  | nil => intro G m key val h; simpa [extractChoice] using h
  | cons a as iha =>
    intro G m key val h
    have h1 := ih a (List.mem_cons_self _ _) G m key val h
    have ih2 := iha (fun b hb => ih b (List.mem_cons_of_mem _ hb))
    rw [extractChoice]
    by_cases hr : (extract vars a G m).1 = true
    · simpa [hr] using h1
    · simpa [hr] using ih2 G _ key val h1

/-- The side-by-side loop keeps every binding of the incoming grounding. -/
theorem extractSeq_keeps (vars : Variables) (ps : List Atom)
    (ih : ∀ a ∈ ps, ∀ G m key val, ValMap.find m key = some val →
      (extract vars a G m).2.find key = some val) :
    ∀ gs m key val, ValMap.find m key = some val →
      (extractSeq vars ps gs m).2.find key = some val := by
  induction ps with
  | nil => intro gs m key val h; simpa [extractSeq] using h
  | cons a as iha =>
    intro gs m key val h
    cases gs with
    | nil => simpa [extractSeq] using h
    | cons g gs =>
      have h1 := ih a (List.mem_cons_self _ _) g m key val h
      have ih2 := iha (fun b hb => ih b (List.mem_cons_of_mem _ hb))
      rw [extractSeq]
      by_cases hr : (extract vars a g m).1 = true
      · simpa [hr] using ih2 gs _ key val h1
      · simpa [hr] using h1

/-- A pattern matches itself and leaves the grounding alone. -/
theorem extract_same (vars : Variables) (P : Atom) (m : ValMap) :
    extract vars P P m = (true, m) := by
  cases P <;> simp [extract]

/-- On a declared variable other than the ground term, the matcher takes the
variable branch. -/
theorem extract_declared (vars : Variables) (P G : Atom) (m : ValMap)
    (hne : P ≠ G) (hd : isDeclared vars P = true) :
    extract vars P G m = extractVariable vars P G m := by
  cases P <;> simp [extract, hne, hd]

/-- A node that is not a declared variable matches no other atom. -/
theorem extract_node (vars : Variables) (c : Nat) (n : String) (G : Atom)
    (m : ValMap) (hne : Atom.node c n ≠ G)
    (hd : isDeclared vars (Atom.node c n) = false) :
    extract vars (Atom.node c n) G m = (false, m) := by
  rw [extract]
  simp only [hne, hd, if_false, Bool.false_eq_true, decide_False]
  split_ifs <;> rfl

/-- The matcher on a link other than the ground term. -/
theorem extract_link (vars : Variables) (c : Nat) (out : List Atom) (G : Atom)
    (m : ValMap) (hne : Atom.link c out ≠ G)
    (hd : isDeclared vars (Atom.link c out) = false) :
    extract vars (Atom.link c out) G m =
      if AType.link c = CHOICE_LINK then extractChoice vars out G m
      else if AType.link c ≠ G.getType then (false, m)
      else if G.getOutgoingSet.length ≠ out.length then (false, m)
      else extractSeq vars out G.getOutgoingSet m := by
  rw [extract]
  simp only [hne, hd, if_false, Bool.false_eq_true]

/-- The matcher keeps every binding of the incoming grounding, whatever it
returns. -/
theorem extract_keeps (vars : Variables) (P : Atom) :
    ∀ G m key val, ValMap.find m key = some val →
      (extract vars P G m).2.find key = some val := by
  induction P using Atom.induct with
  | hn c n =>
    intro G m key val h
    by_cases he : Atom.node c n = G
    · rw [← he, extract_same]; exact h
    · cases hd : isDeclared vars (Atom.node c n) with
      | true => rw [extract_declared vars _ G m he hd]; exact extractVariable_keeps vars _ G m key val h
      | false => rw [extract_node vars c n G m he hd]; exact h
  | hl c out ih =>
    intro G m key val h
    by_cases he : Atom.link c out = G
    · rw [← he, extract_same]; exact h
    · cases hd : isDeclared vars (Atom.link c out) with
      | true => rw [extract_declared vars _ G m he hd]; exact extractVariable_keeps vars _ G m key val h
      | false =>
        rw [extract_link vars c out G m he hd]
        split_ifs
        · exact extractChoice_keeps vars out ih G m key val h
        · exact h
        · exact h
        · exact extractSeq_keeps vars out ih _ m key val h

/-- A link is never a declared variable: its type is not the variable node
type. -/
theorem isDeclared_link (vars : Variables) (c : Nat) (out : List Atom) :
    isDeclared vars (Atom.link c out) = false := by
  simp [isDeclared, Atom.getType, VARIABLE_NODE]

/-- An insertion under an unbound key binds the key to the value. -/
theorem find_emplace_self (m : ValMap) (k v : Atom) (h : m.find k = none) :
    (m.emplace k v).find k = some v := by
  unfold ValMap.emplace
  rw [h]
  simp only [ValMap.find] at h ⊢
  simp [List.lookup_append, h]

/-- A binding found after an insertion was there before or is the inserted
one. -/
theorem find_emplace_inv (m : ValMap) (k v key val : Atom)
    (h : (m.emplace k v).find key = some val) :
    m.find key = some val ∨ (key = k ∧ val = v) := by
  unfold ValMap.emplace at h
  cases hk : m.find k with
  | some _ => rw [hk] at h; exact Or.inl h
  | none =>
    rw [hk] at h
    simp only [ValMap.find] at h ⊢
    rw [List.lookup_append] at h
    cases hm : List.lookup key m with
    | some w => rw [hm] at h; left; simpa using h
    | none =>
      rw [hm] at h
      right
      by_cases hkk : key = k
      · subst hkk; simp [List.lookup] at h; exact ⟨rfl, h.symm⟩
      · have : (key == k) = false := by simpa using hkk
        simp [List.lookup, this] at h

/-- A binding added by the variable branch is one of a declared variable to a
value its type predicate accepts. -/
theorem extractVariable_checked (vars : Variables) (P G : Atom) (m : ValMap)
    (hd : isDeclared vars P = true) (key val : Atom)
    (h : (extractVariable vars P G m).2.find key = some val) :
    m.find key = some val ∨
      (isDeclared vars key = true ∧ vars.is_type key val = true) := by
  unfold extractVariable at h
  cases hk : m.find P with
  | some _ => rw [hk] at h; exact Or.inl h
  | none =>
    rw [hk] at h
    cases ht : vars.is_type P G with
    | false => rw [ht] at h; exact Or.inl h
    | true =>
      rw [ht] at h
      rcases find_emplace_inv m P G key val h with h1 | ⟨h1, h2⟩
      · exact Or.inl h1
      · right; rw [h1, h2]; exact ⟨hd, ht⟩

/-- Bindings added by the loop over alternatives are type-checked bindings of
declared variables. -/
theorem extractChoice_checked (vars : Variables) (alts : List Atom)
    (ih : ∀ a ∈ alts, ∀ G m key val,
      (extract vars a G m).2.find key = some val →
      ValMap.find m key = some val ∨
        (isDeclared vars key = true ∧ vars.is_type key val = true)) :
    ∀ G m key val, (extractChoice vars alts G m).2.find key = some val →
      ValMap.find m key = some val ∨
        (isDeclared vars key = true ∧ vars.is_type key val = true) := by
  induction alts with
  | nil => intro G m key val h; left; simpa [extractChoice] using h
  | cons a as iha =>
    intro G m key val h
    have ih2 := iha (fun b hb => ih b (List.mem_cons_of_mem _ hb))
    rw [extractChoice] at h
    by_cases hr : (extract vars a G m).1 = true
    · simp only [hr, if_true] at h
      exact ih a (List.mem_cons_self _ _) G m key val h
    · simp only [hr, if_false] at h
      rcases ih2 G _ key val h with h1 | h1
      · exact ih a (List.mem_cons_self _ _) G m key val h1
      · exact Or.inr h1

/-- Bindings added by the side-by-side loop are type-checked bindings of
declared variables. -/
theorem extractSeq_checked (vars : Variables) (ps : List Atom)
    (ih : ∀ a ∈ ps, ∀ G m key val,
      (extract vars a G m).2.find key = some val →
      ValMap.find m key = some val ∨
        (isDeclared vars key = true ∧ vars.is_type key val = true)) :
    ∀ gs m key val, (extractSeq vars ps gs m).2.find key = some val →
      ValMap.find m key = some val ∨
        (isDeclared vars key = true ∧ vars.is_type key val = true) := by
  induction ps with
  | nil => intro gs m key val h; left; simpa [extractSeq] using h
  | cons a as iha =>
    intro gs m key val h
    cases gs with
    | nil => left; simpa [extractSeq] using h
    | cons g gs =>
      have ih2 := iha (fun b hb => ih b (List.mem_cons_of_mem _ hb))
      rw [extractSeq] at h
      by_cases hr : (extract vars a g m).1 = true
      · simp only [hr, Bool.not_true, Bool.false_eq_true, if_false] at h
        rcases ih2 gs _ key val h with h1 | h1
        · exact ih a (List.mem_cons_self _ _) g m key val h1
        · exact Or.inr h1
      · simp only [hr, Bool.not_false, if_true] at h
        exact ih a (List.mem_cons_self _ _) g m key val h

/-- Every binding the matcher adds is one of a declared variable to a value its
type predicate accepts. -/
theorem extract_checked (vars : Variables) (P : Atom) :
    ∀ G m key val, (extract vars P G m).2.find key = some val →
      ValMap.find m key = some val ∨
        (isDeclared vars key = true ∧ vars.is_type key val = true) := by
  induction P using Atom.induct with
  | hn c n =>
    intro G m key val h
    by_cases he : Atom.node c n = G
    · rw [← he, extract_same] at h; exact Or.inl h
    · cases hd : isDeclared vars (Atom.node c n) with
      | true =>
        rw [extract_declared vars _ G m he hd] at h
        exact extractVariable_checked vars _ G m hd key val h
      | false => rw [extract_node vars c n G m he hd] at h; exact Or.inl h
  | hl c out ih =>
    intro G m key val h
    by_cases he : Atom.link c out = G
    · rw [← he, extract_same] at h; exact Or.inl h
    · rw [extract_link vars c out G m he (isDeclared_link vars c out)] at h
      split_ifs at h
      · exact extractChoice_checked vars out ih G m key val h
      · exact Or.inl h
      · exact Or.inl h
      · exact extractSeq_checked vars out ih _ m key val h

/-- Positions below the children of a link: the companion of
`extract_position` for the side-by-side loop. -/
theorem extractSeq_position (vars : Variables) (ps : List Atom)
    (ih : ∀ a ∈ ps, choiceFree a = true → ∀ G m, (extract vars a G m).1 = true →
      ∀ p v, subterm a p = some v → isDeclared vars v = true →
      ∃ g, subterm G p = some g ∧
        (g = v ∨ (extract vars a G m).2.find v = some g)) :
    choiceFreeSeq ps = true → ∀ gs m, (extractSeq vars ps gs m).1 = true →
      ∀ i p v, subtermAt ps i p = some v → isDeclared vars v = true →
      ∃ g, subtermAt gs i p = some g ∧
        (g = v ∨ (extractSeq vars ps gs m).2.find v = some g) := by
  induction ps with
  | nil => intro _ gs m _ i p v hs; simp [subtermAt] at hs
  | cons a as iha =>
    intro hcf gs m hok i p v hs hv
    have hcf2 : choiceFree a = true ∧ choiceFreeSeq as = true := by
      simpa [choiceFreeSeq] using hcf
    cases gs with
    | nil => simp [extractSeq] at hok
    | cons g gs =>
      have ih2 := iha (fun b hb => ih b (List.mem_cons_of_mem _ hb)) hcf2.2
      rw [extractSeq] at hok ⊢
      by_cases hr : (extract vars a g m).1 = true
      · simp only [hr, Bool.not_true, Bool.false_eq_true, if_false] at hok ⊢
        cases i with
        | zero =>
          rw [subtermAt] at hs ⊢
          obtain ⟨g0, hg0, hor⟩ :=
            ih a (List.mem_cons_self _ _) hcf2.1 g m hr p v hs hv
          refine ⟨g0, hg0, ?_⟩
          rcases hor with h1 | h1
          · exact Or.inl h1
          · right
            exact extractSeq_keeps vars as
              (fun b _ => extract_keeps vars b) gs _ v g0 h1
        | succ j =>
          rw [subtermAt] at hs ⊢
          exact ih2 gs _ hok j p v hs hv
      · simp [hr] at hok

/-- After a successful match of a pattern without disjunctive alternative
nodes, the ground term has a sub-term at every position of a declared
variable of the pattern, and that sub-term is the variable itself or the value
the grounding gives to the variable. -/
theorem extract_position (vars : Variables) (P : Atom) :
    choiceFree P = true → ∀ G m, (extract vars P G m).1 = true →
      ∀ p v, subterm P p = some v → isDeclared vars v = true →
      ∃ g, subterm G p = some g ∧
        (g = v ∨ (extract vars P G m).2.find v = some g) := by
  induction P using Atom.induct with
  | hn c n =>
    intro _ G m hok p v hs hv
    have hp : p = [] ∧ v = Atom.node c n := by
      cases p with
      | nil => simpa [subterm] using hs.symm
      | cons i p => simp [subterm] at hs
    obtain ⟨hp1, hp2⟩ := hp
    subst hp1 hp2
    by_cases he : Atom.node c n = G
    · exact ⟨G, by simp [subterm], Or.inl he.symm⟩
    · refine ⟨G, by simp [subterm], Or.inr ?_⟩
      rw [extract_declared vars _ G m he hv] at hok ⊢
      unfold extractVariable at hok ⊢
      cases hk : ValMap.find m (Atom.node c n) with
      | some w =>
        rw [hk] at hok
        simp only [decide_eq_true_eq] at hok
        simp [hk, hok]
      | none =>
        rw [hk] at hok
        cases ht : vars.is_type (Atom.node c n) G with
        | false => simp [ht] at hok
        | true => simpa [ht] using find_emplace_self m _ G hk
  | hl c out ih =>
    intro hcf G m hok p v hs hv
    have hcf2 : AType.link c ≠ CHOICE_LINK ∧ choiceFreeSeq out = true := by
      simpa [choiceFree] using hcf
    by_cases he : Atom.link c out = G
    · exact ⟨v, by rw [← he]; exact hs, Or.inl rfl⟩
    · cases p with
      | nil =>
        have hv2 : v = Atom.link c out := by simpa [subterm] using hs.symm
        rw [hv2, isDeclared_link] at hv
        exact absurd hv (by decide)
      | cons i p =>
        rw [extract_link vars c out G m he (isDeclared_link vars c out)] at hok ⊢
        rw [if_neg hcf2.1] at hok ⊢
        by_cases hty : AType.link c ≠ G.getType
        · simp [hty] at hok
        · rw [if_neg hty] at hok ⊢
          by_cases hlen : G.getOutgoingSet.length ≠ out.length
          · simp [hlen] at hok
          · rw [if_neg hlen] at hok ⊢
            cases G with
            | node c2 n2 => simp [Atom.getType] at hty
            | link c2 glo =>
              rw [subterm] at hs ⊢
              exact extractSeq_position vars out ih hcf2.2 glo m hok i p v hs hv

/-! ## Variable consistency and type gating -/

/-- C1, as stated, fails: the pattern `pair(x, x)` matches the ground term
`pair(x, 5)` from the empty grounding (the first child is the variable itself
and is accepted by the identity test without binding `x`), yet the ground
sub-terms at the two positions of `x` are `x` and `5`. -/
theorem repeated_variable_identity_counterexample :
    choiceFree (pair [var "x", var "x"]) = true ∧
    isDeclared (anyVars [var "x"]) (var "x") = true ∧
    subterm (pair [var "x", var "x"]) [0] = some (var "x") ∧
    subterm (pair [var "x", var "x"]) [1] = some (var "x") ∧
    (extract (anyVars [var "x"]) (pair [var "x", var "x"])
      (pair [var "x", num "5"]) []).1 = true ∧
    subterm (pair [var "x", num "5"]) [0] = some (var "x") ∧
    subterm (pair [var "x", num "5"]) [1] = some (num "5") ∧
    var "x" ≠ num "5" := by
  decide

/-- C1, amended: for a pattern `P` without disjunctive alternative nodes in
which the declared variable `v` stands at the positions `p` and `q`, a
successful `extract(P, G)` from the empty grounding means that `G` has
sub-terms at `p` and at `q`, and these are equal terms unless one of them is
the variable `v` itself. -/
theorem repeated_variable_consistent (vars : Variables) (P G v : Atom)
    (p q : List Nat) (hP : choiceFree P = true)
    (hv : isDeclared vars v = true)
    (hp : subterm P p = some v) (hq : subterm P q = some v)
    (hok : (extract vars P G []).1 = true) :
    ∃ g1 g2, subterm G p = some g1 ∧ subterm G q = some g2 ∧
      (g1 = g2 ∨ g1 = v ∨ g2 = v) := by
  obtain ⟨g1, h1, o1⟩ := extract_position vars P hP G [] hok p v hp hv
  obtain ⟨g2, h2, o2⟩ := extract_position vars P hP G [] hok q v hq hv
  refine ⟨g1, g2, h1, h2, ?_⟩
  rcases o1 with e1 | f1
  · exact Or.inr (Or.inl e1)
  · rcases o2 with e2 | f2
    · exact Or.inr (Or.inr e2)
    · left
      rw [f1] at f2
      exact Option.some.inj f2

/-- Witness of C1, amended: `pair(x, x)` against `pair(7, 7)`. -/
theorem repeated_variable_consistent_witness :
    ∃ g1 g2, subterm (pair [num "7", num "7"]) [0] = some g1 ∧
      subterm (pair [num "7", num "7"]) [1] = some g2 ∧
      (g1 = g2 ∨ g1 = var "x" ∨ g2 = var "x") :=
  repeated_variable_consistent (anyVars [var "x"]) (pair [var "x", var "x"])
    (pair [num "7", num "7"]) (var "x") [0] [1] (by decide) (by decide)
    (by decide) (by decide) (by decide)

/-- C2, as stated, fails twice over. With a scope that rejects every
candidate, `pair(x)` still matches the identical ground term `pair(x)` (the
identity test comes before the type check). With a scope accepting links only,
the pattern `Choice(x, y)` matches `pair(5)` although the ground sub-term `5`
at the position of `x` is rejected: an alternative is compared with the whole
ground term, not with the sub-term at its own position. -/
theorem type_gate_counterexample :
    (isDeclared (rejectVars [var "x"]) (var "x") = true ∧
      subterm (pair [var "x"]) [0] = some (var "x") ∧
      subterm (pair [var "x"]) [0] = some (var "x") ∧
      (rejectVars [var "x"]).is_type (var "x") (var "x") = false ∧
      (extract (rejectVars [var "x"]) (pair [var "x"]) (pair [var "x"]) []).1
        = true) ∧
    (isDeclared (linkVars [var "x", var "y"]) (var "x") = true ∧
      subterm (choice [var "x", var "y"]) [0] = some (var "x") ∧
      subterm (pair [num "5"]) [0] = some (num "5") ∧
      (linkVars [var "x", var "y"]).is_type (var "x") (num "5") = false ∧
      (extract (linkVars [var "x", var "y"]) (choice [var "x", var "y"])
        (pair [num "5"]) []).1 = true) := by
  decide

/-- The type gate in the side-by-side loop: the companion of
`extract_gate` for a position below the `i`-th atom of the pattern
sequence. -/
theorem extractSeq_gate (vars : Variables) (v g : Atom) (ps : List Atom)
    (ih : ∀ a ∈ ps, ∀ (p : List Nat) (G : Atom) (m : ValMap),
      choiceFreeAbove a p = true → subterm a p = some v →
      subterm G p = some g →
      (∀ k t, m.find k = some t → vars.is_type k t = true) →
      (extract vars a G m).1 = false) :
    ∀ (i : Nat) (p : List Nat) (gs : List Atom) (m : ValMap),
      choiceFreeAboveAt ps i p = true → subtermAt ps i p = some v →
      subtermAt gs i p = some g →
      (∀ k t, m.find k = some t → vars.is_type k t = true) →
      (extractSeq vars ps gs m).1 = false := by
  induction ps with
  | nil => intro i p gs m _ hs; simp [subtermAt] at hs
  | cons a as iha =>
    intro i p gs m hcf hs hg hm
    cases gs with
    | nil => simp [subtermAt] at hg
    | cons g0 gs =>
      rw [extractSeq]
      cases i with
      | zero =>
        rw [choiceFreeAboveAt] at hcf
        rw [subtermAt] at hs hg
        have hf := ih a (List.mem_cons_self _ _) p g0 m hcf hs hg hm
        simp [hf]
      | succ j =>
        rw [choiceFreeAboveAt] at hcf
        rw [subtermAt] at hs hg
        cases hr : (extract vars a g0 m).1 with
        | false => simp
        | true =>
          simp only [Bool.not_true, Bool.false_eq_true, if_false]
          have hm2 : ∀ k t, (extract vars a g0 m).2.find k = some t →
              vars.is_type k t = true := by
            intro k t h
            rcases extract_checked vars a g0 m k t h with h1 | ⟨_, h2⟩
            · exact hm k t h1
            · exact h2
          exact iha (fun b hb => ih b (List.mem_cons_of_mem _ hb)) j p gs _
            hcf hs hg hm2

/-- The type gate from any grounding whose bindings are type-checked: if the
declared variable `v` stands at position `p` of the pattern with no
disjunctive alternative node above it, and the ground term has at `p` a
sub-term other than `v` that the scope rejects for `v`, the match fails. -/
theorem extract_gate (vars : Variables) (v g : Atom)
    (hv : isDeclared vars v = true) (hne : g ≠ v)
    (hrej : vars.is_type v g = false) (P : Atom) :
    ∀ (p : List Nat) (G : Atom) (m : ValMap),
      choiceFreeAbove P p = true → subterm P p = some v →
      subterm G p = some g →
      (∀ k t, m.find k = some t → vars.is_type k t = true) →
      (extract vars P G m).1 = false := by
  induction P using Atom.induct with
  | hn c n =>
    intro p G m _ hs hg hm
    have hp : p = [] ∧ v = Atom.node c n := by
      cases p with
      | nil => simpa [subterm] using hs.symm
      | cons i p => simp [subterm] at hs
    obtain ⟨hp1, hp2⟩ := hp
    subst hp1 hp2
    have hG : G = g := by simpa [subterm] using hg
    subst hG
    rw [extract_declared vars _ G m (fun e => hne e.symm) hv]
    unfold extractVariable
    cases hk : m.find (Atom.node c n) with
    | some t =>
      have ht := hm _ t hk
      have htg : t ≠ G := by
        intro e
        rw [e, hrej] at ht
        exact absurd ht (by decide)
      simp [htg]
    | none => simp [hrej]
  | hl c out ih =>
    intro p G m hcf hs hg hm
    cases p with
    | nil =>
      have hv2 : v = Atom.link c out := by simpa [subterm] using hs.symm
      rw [hv2, isDeclared_link] at hv
      exact absurd hv (by decide)
    | cons i p =>
      have hcf2 : AType.link c ≠ CHOICE_LINK ∧ choiceFreeAboveAt out i p = true := by
        simpa [choiceFreeAbove] using hcf
      have he : Atom.link c out ≠ G := by
        intro e
        rw [← e, hs] at hg
        exact hne (Option.some.inj hg).symm
      rw [extract_link vars c out G m he (isDeclared_link vars c out),
        if_neg hcf2.1]
      by_cases hty : AType.link c ≠ G.getType
      · rw [if_pos hty]
      · rw [if_neg hty]
        by_cases hlen : G.getOutgoingSet.length ≠ out.length
        · rw [if_pos hlen]
        · rw [if_neg hlen]
          cases G with
          | node c2 n2 => simp [Atom.getType] at hty
          | link c2 glo =>
            rw [subterm] at hs hg
            exact extractSeq_gate vars v g out ih i p glo m hcf2.2 hs hg hm

/-- C2, amended: for a pattern `P`, a declared variable `v` standing at a
position `p` of `P` with no disjunctive alternative node above it (on the
path from the root of `P` to `p`), and a ground term `G` whose sub-term `g` at
`p` is not `v` itself: if the scope rejects `g` for `v` then `extract(P, G)`
from the empty grounding returns false, whatever the rest of `P` and `G` look
like. -/
theorem type_gate (vars : Variables) (P G v g : Atom) (p : List Nat)
    (hP : choiceFreeAbove P p = true) (hv : isDeclared vars v = true)
    (hp : subterm P p = some v) (hg : subterm G p = some g) (hne : g ≠ v)
    (hrej : vars.is_type v g = false) :
    (extract vars P G []).1 = false :=
  extract_gate vars v g hv hne hrej P p G [] hP hp hg
    (fun k t h => by simp [ValMap.find] at h)

/-- Witness of C2, amended: `pair(Choice(1, 2), x)` against `pair(1, 5)` in a
scope that rejects every candidate; the disjunctive alternative node is not
above the position of `x`. -/
theorem type_gate_witness :
    (extract (rejectVars [var "x"])
      (pair [choice [num "1", num "2"], var "x"])
      (pair [num "1", num "5"]) []).1 = false :=
  type_gate (rejectVars [var "x"]) (pair [choice [num "1", num "2"], var "x"])
    (pair [num "1", num "5"]) (var "x") (num "5") [1] (by decide) (by decide)
    (by decide) (by decide) (by decide) (by decide)

/-! ## Alternation -/

/-- The loop over the alternatives, when every alternative that fails from
`m` hands `m` back as it was: it succeeds exactly when an alternative does. -/
theorem extractChoice_iff (vars : Variables) (G : Atom) (m : ValMap)
    (alts : List Atom)
    (hclean : ∀ A ∈ alts, (extract vars A G m).1 = false →
      (extract vars A G m).2 = m) :
    (extractChoice vars alts G m).1 = true ↔
      ∃ A ∈ alts, (extract vars A G m).1 = true := by
  induction alts with
  | nil => simp [extractChoice]
  | cons a as iha =>
    have ih2 := iha (fun b hb => hclean b (List.mem_cons_of_mem _ hb))
    rw [extractChoice]
    cases hr : (extract vars a G m).1 with
    | true =>
      simp only [if_true]
      exact ⟨fun _ => ⟨a, List.mem_cons_self _ _, hr⟩, fun _ => trivial⟩
    | false =>
      simp only [Bool.false_eq_true, if_false]
      rw [hclean a (List.mem_cons_self _ _) hr, ih2]
      constructor
      · rintro ⟨b, hb, hbr⟩
        exact ⟨b, List.mem_cons_of_mem _ hb, hbr⟩
      · rintro ⟨b, hb, hbr⟩
        rcases List.mem_cons.mp hb with hba | hbas
        · rw [hba, hr] at hbr
          exact absurd hbr (by decide)
        · exact ⟨b, hbas, hbr⟩

/-- C3, as stated, fails: the pattern `Choice(7)` matches the ground term
`Choice(7)` from the empty grounding through the identity test, although its
only alternative `7` does not match that ground term. -/
theorem alternation_identity_counterexample :
    (choice [num "7"]).getType = CHOICE_LINK ∧
    (extract (anyVars []) (choice [num "7"]) (choice [num "7"]) []).1 = true ∧
    ¬ ∃ A ∈ (choice [num "7"]).getOutgoingSet,
      (extract (anyVars []) A (choice [num "7"]) []).1 = true := by
  decide

/-- C3, amended: for a disjunctive alternative pattern `P`, a ground term `G`
other than `P` itself and a grounding `m` that every alternative failing from
`m` leaves as it was, `extract(P, G, m)` succeeds if and only if
`extract(A, G, m)` succeeds for at least one alternative `A` of `P`. -/
theorem alternation_succeeds_iff (vars : Variables) (P G : Atom) (m : ValMap)
    (hP : P.getType = CHOICE_LINK) (hne : P ≠ G)
    (hclean : ∀ A ∈ P.getOutgoingSet, (extract vars A G m).1 = false →
      (extract vars A G m).2 = m) :
    (extract vars P G m).1 = true ↔
      ∃ A ∈ P.getOutgoingSet, (extract vars A G m).1 = true := by
  cases P with
  | node c n => simp [Atom.getType, CHOICE_LINK] at hP
  | link c out =>
    have hc : AType.link c = CHOICE_LINK := hP
    rw [extract_link vars c out G m hne (isDeclared_link vars c out), if_pos hc]
    exact extractChoice_iff vars G m out hclean

/-- Witness of C3, amended: `Choice(pair(8), pair(x))` against `pair(7)`. -/
theorem alternation_succeeds_iff_witness :
    (extract (anyVars [var "x"]) (choice [pair [num "8"], pair [var "x"]])
      (pair [num "7"]) []).1 = true ↔
      ∃ A ∈ (choice [pair [num "8"], pair [var "x"]]).getOutgoingSet,
        (extract (anyVars [var "x"]) A (pair [num "7"]) []).1 = true :=
  alternation_succeeds_iff (anyVars [var "x"])
    (choice [pair [num "8"], pair [var "x"]]) (pair [num "7"]) []
    (by decide) (by decide) (by decide)

/-- C4, evaluated where the code departs from it: with `x` and `y` declared,
`Choice(pair(x, 9), pair(7, y))` against `pair(7, 8)` from the empty
grounding. The first alternative binds `x` to `7` and then fails; the second
one is the first to succeed from the empty grounding and yields `y = 8` alone;
the grounding left by the whole pattern also holds the binding of `x` made by
the failed alternative. -/
theorem alternation_keeps_failed_bindings :
    extract (anyVars [var "x", var "y"])
        (choice [pair [var "x", num "9"], pair [num "7", var "y"]])
        (pair [num "7", num "8"]) []
      = (true, [(var "x", num "7"), (var "y", num "8")]) ∧
    extract (anyVars [var "x", var "y"]) (pair [var "x", num "9"])
        (pair [num "7", num "8"]) []
      = (false, [(var "x", num "7")]) ∧
    extract (anyVars [var "x", var "y"]) (pair [num "7", var "y"])
        (pair [num "7", num "8"]) []
      = (true, [(var "y", num "8")]) ∧
    ValMap.find [(var "x", num "7"), (var "y", num "8")] (var "x")
      = some (num "7") ∧
    ValMap.find [(var "y", num "8")] (var "x") = none := by
  decide

/-- The same defect makes a later alternative fail: `Choice(pair(x, 9),
pair(7, x))` does not match `pair(7, 8)` from the empty grounding, although
its second alternative alone does. -/
theorem alternation_failed_binding_blocks :
    (extract (anyVars [var "x"])
        (choice [pair [var "x", num "9"], pair [num "7", var "x"]])
        (pair [num "7", num "8"]) []).1 = false ∧
    (extract (anyVars [var "x"]) (pair [num "7", var "x"])
        (pair [num "7", num "8"]) []).1 = true := by
  decide

/-! ## Strictness on tags and arities -/

/-- C5: a pattern term that is neither a declared variable nor a disjunctive
alternative node does not match, from any grounding, a ground term of another
tag, nor a composite ground term with another number of children. -/
theorem extract_strict (vars : Variables) (P G : Atom) (m : ValMap)
    (hv : isDeclared vars P = false) (hc : P.getType ≠ CHOICE_LINK)
    (h : P.getType ≠ G.getType ∨
      (P.isLink = true ∧ G.isLink = true ∧
        P.getOutgoingSet.length ≠ G.getOutgoingSet.length)) :
    (extract vars P G m).1 = false := by
  have hne : P ≠ G := by
    intro e
    subst e
    rcases h with h | ⟨_, _, h⟩ <;> exact h rfl
  cases P with
  | node c n => rw [extract_node vars c n G m hne hv]
  | link c out =>
    have hc2 : ¬ AType.link c = CHOICE_LINK := hc
    rw [extract_link vars c out G m hne hv, if_neg hc2]
    by_cases hty : AType.link c ≠ G.getType
    · rw [if_pos hty]
    · rw [if_neg hty]
      rcases h with h | ⟨_, _, h⟩
      · exact absurd h hty
      · have hlen : G.getOutgoingSet.length ≠ out.length := fun e => h e.symm
        rw [if_pos hlen]

/-- Witness of C5: `pair(x, 1)` against `pair(7)`. -/
theorem extract_strict_witness :
    (extract (anyVars [var "x"]) (pair [var "x", num "1"]) (pair [num "7"])
      []).1 = false :=
  extract_strict (anyVars [var "x"]) (pair [var "x", num "1"])
    (pair [num "7"]) [] (by decide) (by decide) (Or.inr (by decide))

/-! ## The value tuple -/

/-- The loop over `varseq` appends the lookups of the variables, in order, and
raises the flag exactly when a lookup fails. -/
theorem collectValues_eq (m : ValMap) (vs : List Atom) (u : Bool)
    (acc : List Handle) :
    collectValues m vs (u, acc) =
      (u || vs.any (fun v => (m.find v).isNone), acc ++ vs.map (fun v => m.find v)) := by
  induction vs generalizing u acc with
  | nil => simp [collectValues]
  | cons v vs ih =>
    rw [collectValues]
    cases hv : m.find v with
    | none => simp [ih, hv, Handle.UNDEFINED]
    | some val => simp [ih, hv]

/-- A sequence of defined handles is read back as the atoms it holds. -/
theorem definedSeq_map_some (ts : List Atom) :
    definedSeq (ts.map some) = some ts := by
  induction ts with
  | nil => rfl
  | cons t ts ih => simp [definedSeq, ih]

/-- When every variable of the sequence is bound, the tuple of lookups holds
defined handles only. -/
theorem lookups_defined (m : ValMap) (vs : List Atom)
    (h : vs.any (fun v => (m.find v).isNone) = false) :
    ∃ ts : List Atom, vs.map (fun v => m.find v) = ts.map some := by
  induction vs with
  | nil => exact ⟨[], rfl⟩
  | cons v vs ih =>
    simp only [List.any_cons, Bool.or_eq_false_iff] at h
    obtain ⟨ts, hts⟩ := ih h.2
    cases hv : m.find v with
    | none => simp [hv] at h
    | some t => exact ⟨t :: ts, by simp [hv, hts]⟩

/-! ## The rewriter -/

/-- The rewriter, with the loop over `varseq` resolved into the tuple of
lookups. -/
theorem rewrite_one_eq (M : MapLink) (G : Atom) :
    rewrite_one M G =
      if (extract M._vars M.body G []).1 = false then some Handle.UNDEFINED
      else if M._is_impl = true then
        some (M._vars.substitute_nocheck M._rewrite
          (M._vars.varseq.map (fun v => (extract M._vars M.body G []).2.find v)))
      else if M._vars.varseq.any
          (fun v => ((extract M._vars M.body G []).2.find v).isNone) = true then
        some Handle.UNDEFINED
      else if 1 < M._vars.varseq.length then
        (createLink LIST_LINK
          (M._vars.varseq.map
            (fun v => (extract M._vars M.body G []).2.find v))).map some
      else
        (M._vars.varseq.map
          (fun v => (extract M._vars M.body G []).2.find v))[0]? := by
  unfold rewrite_one
  simp only [collectValues_eq, Bool.false_or, List.nil_append, List.length_map]
  cases (extract M._vars M.body G []).1 <;> simp

/-- A tuple of defined handles is wrapped into a list link over the atoms it
holds. -/
theorem createLink_list (ts : List Atom) :
    ∃ a, createLink LIST_LINK (ts.map some) = some a ∧
      a.getType = LIST_LINK ∧ a.getOutgoingSet = ts := by
  refine ⟨Atom.link 3 ts, ?_, rfl, rfl⟩
  simp [createLink, LIST_LINK, definedSeq_map_some]

/-- C7: for a plain declaration with at least one declared variable,
`rewrite_one(G)` always returns (no read outside the value tuple), and it
returns the undefined handle if and only if the match of the body fails or
some variable of `varseq` has no binding in the resulting grounding. -/
theorem rewrite_one_absent_iff (M : MapLink) (G : Atom)
    (hplain : M._is_impl = false) (hvars : M._vars.varseq ≠ []) :
    rewrite_one M G ≠ none ∧
    (rewrite_one M G = some Handle.UNDEFINED ↔
      ((extract M._vars M.body G []).1 = false ∨
        ∃ v ∈ M._vars.varseq, (extract M._vars M.body G []).2.find v = none)) := by
  rw [rewrite_one_eq, hplain]
  cases hok : (extract M._vars M.body G []).1 with
  | false => simp
  | true =>
    simp only [Bool.true_eq_false, if_false, Bool.false_eq_true, false_or]
    cases hany : M._vars.varseq.any
        (fun v => ((extract M._vars M.body G []).2.find v).isNone) with
    | true =>
      simp only [if_true]
      obtain ⟨v, hv, hnone⟩ := List.any_eq_true.mp hany
      have hex : ∃ v ∈ M._vars.varseq,
          (extract M._vars M.body G []).2.find v = none :=
        ⟨v, hv, by simpa using hnone⟩
      exact ⟨by simp, fun _ => hex, fun _ => trivial⟩
    | false =>
      simp only [Bool.false_eq_true, if_false]
      have hall : ¬ ∃ v ∈ M._vars.varseq,
          (extract M._vars M.body G []).2.find v = none := by
        rintro ⟨v, hv, hnone⟩
        have : M._vars.varseq.any
            (fun v => ((extract M._vars M.body G []).2.find v).isNone) = true :=
          List.any_eq_true.mpr ⟨v, hv, by simp [hnone]⟩
        rw [hany] at this
        exact absurd this (by decide)
      obtain ⟨ts, hts⟩ := lookups_defined _ _ hany
      rw [hts]
      by_cases hlen : 1 < M._vars.varseq.length
      · rw [if_pos hlen]
        obtain ⟨a, ha, _, _⟩ := createLink_list ts
        rw [ha]
        simp [Handle.UNDEFINED, hall]
      · rw [if_neg hlen]
        cases ts with
        | nil =>
          have : M._vars.varseq = [] := by simpa using hts
          exact absurd this hvars
        | cons t ts => simp [Handle.UNDEFINED, hall]

/-- Witness of C7: `Scope({x, y}, pair(x, y))` on `mismatch(9)`. -/
theorem rewrite_one_absent_iff_witness :
    rewrite_one pairDecl (mismatch [num "9"]) ≠ none ∧
    (rewrite_one pairDecl (mismatch [num "9"]) = some Handle.UNDEFINED ↔
      ((extract pairDecl._vars pairDecl.body (mismatch [num "9"]) []).1 = false ∨
        ∃ v ∈ pairDecl._vars.varseq,
          (extract pairDecl._vars pairDecl.body (mismatch [num "9"]) []).2.find v
            = none)) :=
  rewrite_one_absent_iff pairDecl (mismatch [num "9"]) rfl (by decide)

/-- C8: for a plain declaration with exactly one declared variable `x` and a
ground term `G` that the body matches with `x` bound to `t`, `rewrite_one(G)`
returns `t` itself, not a sequence node around it. -/
theorem rewrite_one_unwraps (M : MapLink) (G x t : Atom)
    (hplain : M._is_impl = false) (hvars : M._vars.varseq = [x])
    (hok : (extract M._vars M.body G []).1 = true)
    (hx : (extract M._vars M.body G []).2.find x = some t) :
    rewrite_one M G = some (some t) := by
  rw [rewrite_one_eq, hplain, hok, hvars]
  simp [hx]

/-- Witness of C8: `Scope({x}, pair(x, 1))` on `pair(7, 1)` returns `7`. -/
theorem rewrite_one_unwraps_witness :
    rewrite_one unaryDecl (pair [num "7", num "1"]) = some (some (num "7")) :=
  rewrite_one_unwraps unaryDecl (pair [num "7", num "1"]) (var "x") (num "7")
    rfl rfl (by decide) (by decide)

/-- C9: for a plain declaration with two or more declared variables and a
ground term `G` whose match binds all of them, `rewrite_one(G)` is a list
link with one child per variable of `varseq`, the `i`-th child being the term
bound to the `i`-th variable, whatever the order of the bindings in the
grounding. -/
theorem rewrite_one_tuple_order (M : MapLink) (G : Atom)
    (hplain : M._is_impl = false) (hvars : 2 ≤ M._vars.varseq.length)
    (hok : (extract M._vars M.body G []).1 = true)
    (hall : ∀ v ∈ M._vars.varseq,
      (extract M._vars M.body G []).2.find v ≠ none) :
    ∃ a, rewrite_one M G = some (some a) ∧ a.getType = LIST_LINK ∧
      a.getOutgoingSet.length = M._vars.varseq.length ∧
      ∀ i (hi : i < M._vars.varseq.length),
        (extract M._vars M.body G []).2.find (M._vars.varseq.get ⟨i, hi⟩) =
          a.getOutgoingSet[i]? := by
  have hany : M._vars.varseq.any
      (fun v => ((extract M._vars M.body G []).2.find v).isNone) = false := by
    cases h : M._vars.varseq.any
        (fun v => ((extract M._vars M.body G []).2.find v).isNone) with
    | false => rfl
    | true =>
      obtain ⟨v, hv, hnone⟩ := List.any_eq_true.mp h
      exact absurd (by simpa using hnone) (hall v hv)
  obtain ⟨ts, hts⟩ := lookups_defined _ _ hany
  obtain ⟨a, ha, hty, hout⟩ := createLink_list ts
  have hlen : ts.length = M._vars.varseq.length := by
    have := congrArg List.length hts
    simpa using this.symm
  refine ⟨a, ?_, hty, by rw [hout, hlen], ?_⟩
  · rw [rewrite_one_eq, hplain, hok, hany, hts, ha]
    have h1 : 1 < M._vars.varseq.length := hvars
    simp [h1]
  · intro i hi
    rw [hout]
    have h1 : (M._vars.varseq.map
        (fun v => (extract M._vars M.body G []).2.find v))[i]? =
        (ts.map some)[i]? := by rw [hts]
    simp only [List.getElem?_map] at h1
    have hi2 : i < ts.length := by rw [hlen]; exact hi
    rw [List.getElem?_eq_getElem hi, List.getElem?_eq_getElem hi2] at h1
    simp only [Option.map_some'] at h1
    rw [List.getElem?_eq_getElem hi2]
    have h2 := Option.some.inj h1
    simpa using h2

/-- Witness of C9: `Scope({x, y}, pair(x, y))` on `pair(1, 2)`. -/
theorem rewrite_one_tuple_order_witness :
    ∃ a, rewrite_one pairDecl (pair [num "1", num "2"]) = some (some a) ∧
      a.getType = LIST_LINK ∧
      a.getOutgoingSet.length = pairDecl._vars.varseq.length ∧
      ∀ i (hi : i < pairDecl._vars.varseq.length),
        (extract pairDecl._vars pairDecl.body (pair [num "1", num "2"])
          []).2.find (pairDecl._vars.varseq.get ⟨i, hi⟩) =
          a.getOutgoingSet[i]? :=
  rewrite_one_tuple_order pairDecl (pair [num "1", num "2"]) rfl (by decide)
    (by decide) (by decide)

/-- The order of the tuple is the declared one: `Scope({x, y}, pair(y, x))` on
`pair(1, 2)` binds `y` first and `x` second, and returns `list(2, 1)`. -/
theorem rewrite_one_declared_order_scenario :
    (extract swapDecl._vars swapDecl.body (pair [num "1", num "2"]) []).2 =
      [(var "y", num "1"), (var "x", num "2")] ∧
    rewrite_one swapDecl (pair [num "1", num "2"]) =
      some (some (list [num "2", num "1"])) := by
  decide

/-- C10: for an implication-shaped declaration, `rewrite_one(G)` returns the
unchecked substitution of the value tuple into the rewrite target whenever
the body matches `G`, the tuple holding for each variable of `varseq` its
binding or the undefined handle; it returns the undefined handle when the
body does not match. -/
theorem rewrite_one_implication (M : MapLink) (G : Atom)
    (himpl : M._is_impl = true) :
    ((extract M._vars M.body G []).1 = true →
      rewrite_one M G = some (M._vars.substitute_nocheck M._rewrite
        (M._vars.varseq.map
          (fun v => (extract M._vars M.body G []).2.find v)))) ∧
    ((extract M._vars M.body G []).1 = false →
      rewrite_one M G = some Handle.UNDEFINED) := by
  rw [rewrite_one_eq, himpl]
  cases (extract M._vars M.body G []).1 <;> simp

/-- Witness of C10: the implication over `{x, y}` with body `pair(x, 1)` on
`pair(7, 1)`, where `y` stays ungrounded. -/
theorem rewrite_one_implication_witness :
    ((extract implDecl._vars implDecl.body (pair [num "7", num "1"]) []).1 = true →
      rewrite_one implDecl (pair [num "7", num "1"]) =
        some (implDecl._vars.substitute_nocheck implDecl._rewrite
          (implDecl._vars.varseq.map
            (fun v => (extract implDecl._vars implDecl.body
              (pair [num "7", num "1"]) []).2.find v)))) ∧
    ((extract implDecl._vars implDecl.body (pair [num "7", num "1"]) []).1 = false →
      rewrite_one implDecl (pair [num "7", num "1"]) = some Handle.UNDEFINED) :=
  rewrite_one_implication implDecl (pair [num "7", num "1"]) rfl

/-! ## The mapper -/

/-- The rewriter returns, with a defined or an undefined handle, whenever the
declaration is implication-shaped or declares at least one variable. -/
theorem rewrite_one_returns (M : MapLink) (G : Atom)
    (hM : M._is_impl = true ∨ M._vars.varseq ≠ []) :
    ∃ h : Handle, rewrite_one M G = some h := by
  rw [rewrite_one_eq]
  by_cases hok : (extract M._vars M.body G []).1 = false
  · exact ⟨_, if_pos hok⟩
  · rw [if_neg hok]
    by_cases himpl : M._is_impl = true
    · exact ⟨_, if_pos himpl⟩
    · rw [if_neg himpl]
      have hvars : M._vars.varseq ≠ [] := hM.resolve_left himpl
      by_cases hany : M._vars.varseq.any
          (fun v => ((extract M._vars M.body G []).2.find v).isNone) = true
      · exact ⟨_, if_pos hany⟩
      · rw [if_neg hany]
        obtain ⟨ts, hts⟩ := lookups_defined _ _ (by simpa using hany)
        rw [hts]
        by_cases hlen : 1 < M._vars.varseq.length
        · rw [if_pos hlen]
          obtain ⟨a, ha, _, _⟩ := createLink_list ts
          exact ⟨some a, by rw [ha]; rfl⟩
        · rw [if_neg hlen]
          cases ts with
          | nil =>
            have : M._vars.varseq = [] := by simpa using hts
            exact absurd this hvars
          | cons t ts => exact ⟨some t, by simp⟩

/-- The loop of the mapper, when the rewriter returns on every child: the
defined results are appended to `remap` in the order of the children. -/
theorem remapLoop_eq (M : MapLink)
    (hM : M._is_impl = true ∨ M._vars.varseq ≠ []) (cs remap : List Atom) :
    remapLoop M cs remap =
      some (remap ++ cs.filterMap (fun c => (rewrite_one M c).join)) := by
  induction cs generalizing remap with
  | nil => simp [remapLoop]
  | cons c cs ih =>
    obtain ⟨h, hh⟩ := rewrite_one_returns M c hM
    rw [remapLoop, hh]
    cases h with
    | none => simp [ih, hh]
    | some a => simp [ih, hh]

/-- Shape preservation for a declaration that is implication-shaped or
declares at least one variable: on a list or set input, the mapper returns a
link of the same type over the defined results of the rewriter on the
children, in their order; it has at most as many children as the input. -/
theorem execute_collection (M : MapLink) (valh : Atom)
    (hM : M._is_impl = true ∨ M._vars.varseq ≠ [])
    (hty : valh.getType = SET_LINK ∨ valh.getType = LIST_LINK) :
    ∃ a, execute M valh = some (some a) ∧ a.getType = valh.getType ∧
      a.getOutgoingSet =
        valh.getOutgoingSet.filterMap (fun c => (rewrite_one M c).join) ∧
      a.getOutgoingSet.length ≤ valh.getOutgoingSet.length := by
  cases valh with
  | node c n => rcases hty with h | h <;> simp [Atom.getType, SET_LINK, LIST_LINK] at h
  | link c out =>
    refine ⟨Atom.link c (out.filterMap (fun c => (rewrite_one M c).join)),
      ?_, rfl, rfl, List.length_filterMap_le _ _⟩
    unfold execute
    rw [if_pos hty]
    simp [Atom.getOutgoingSet, Atom.getType, remapLoop_eq M hM, createLink,
      definedSeq_map_some]

/-- The scenario of the specification: `Scope({x, y}, pair(x, y))` mapped over
the list of `pair(1, 2)`, `pair(3, 3)` and `mismatch(9)` gives the list of
`list(1, 2)` and `list(3, 3)`. -/
theorem execute_pairs_scenario :
    execute pairDecl (list [pair [num "1", num "2"], pair [num "3", num "3"],
        mismatch [num "9"]]) =
      some (some (list [list [num "1", num "2"], list [num "3", num "3"]])) := by
  decide

/-- C6, evaluated where the code departs from it: for the plain declaration
whose scope declares no variable and whose body is `5`, the rewriter matches
the child `5`, builds an empty value tuple and reads its first element, so
neither it nor the mapper on the list input `list(5)` has a result. -/
theorem execute_empty_scope_no_result :
    (list [num "5"]).getType = LIST_LINK ∧
    (extract constDecl._vars constDecl.body (num "5") []).1 = true ∧
    constDecl._vars.varseq = [] ∧
    rewrite_one constDecl (num "5") = none ∧
    execute constDecl (list [num "5"]) = none := by
  decide

/-! ## Construction -/

/-- C11, as stated, fails: for the implication link over `pair(x)` and
`pair(x)` the body is the second branch and the link has fewer than three
elements, yet `init` does not throw: the body is also the first branch, which
the source tests first. -/
theorem init_second_branch_counterexample :
    sampleHost.isA (implication [pair [var "x"], pair [var "x"]]).getType
      IMPLICATION_LINK = true ∧
    some (sampleHost.get_body (implication [pair [var "x"], pair [var "x"]])) =
      (implication [pair [var "x"], pair [var "x"]]).getOutgoingSet[1]? ∧
    (implication [pair [var "x"], pair [var "x"]]).getOutgoingSet.length < 3 ∧
    raised (init sampleHost
      [implication [pair [var "x"], pair [var "x"]], list [pair [num "5"]]])
      = false := by
  decide

/-- C11, amended: `init` throws exactly when the outgoing set does not have
exactly two elements, or the type of the first element is not a scope type,
or the first element is implication-shaped with fewer than two elements, or
it is implication-shaped, its body is the second branch and not the first,
and it has fewer than three elements; in every other case it returns a
declaration. -/
theorem init_raises_iff (H : Host) (oset : List Atom) :
    (raised (init H oset) = true ↔
      (oset.length ≠ 2 ∨
        ∃ s valh, oset = [s, valh] ∧
          (H.isA s.getType SCOPE_LINK = false ∨
            (H.isA s.getType IMPLICATION_LINK = true ∧
              s.getOutgoingSet.length < 2) ∨
            (H.isA s.getType IMPLICATION_LINK = true ∧
              some (H.get_body s) ≠ s.getOutgoingSet[0]? ∧
              some (H.get_body s) = s.getOutgoingSet[1]? ∧
              s.getOutgoingSet.length < 3)))) ∧
    (raised (init H oset) = false ↔ ∃ M, init H oset = .ok M) := by
  constructor
  · match oset with
    | [] => simp [init, raised]
    | [a] => simp [init, raised]
    | a :: b :: c :: rest => simp [init, raised]
    | [s, valh] =>
      have hex : (∃ s' valh', [s, valh] = [s', valh'] ∧
          (H.isA s'.getType SCOPE_LINK = false ∨
            (H.isA s'.getType IMPLICATION_LINK = true ∧
              s'.getOutgoingSet.length < 2) ∨
            (H.isA s'.getType IMPLICATION_LINK = true ∧
              some (H.get_body s') ≠ s'.getOutgoingSet[0]? ∧
              some (H.get_body s') = s'.getOutgoingSet[1]? ∧
              s'.getOutgoingSet.length < 3))) ↔
          (H.isA s.getType SCOPE_LINK = false ∨
            (H.isA s.getType IMPLICATION_LINK = true ∧
              s.getOutgoingSet.length < 2) ∨
            (H.isA s.getType IMPLICATION_LINK = true ∧
              some (H.get_body s) ≠ s.getOutgoingSet[0]? ∧
              some (H.get_body s) = s.getOutgoingSet[1]? ∧
              s.getOutgoingSet.length < 3)) := by
        constructor
        · rintro ⟨s', valh', he, h⟩
          have h1 : s = s' := by injection he
          subst h1
          exact h
        · intro h
          exact ⟨s, valh, rfl, h⟩
      rw [hex]
      simp only [List.length_cons, List.length_nil, ne_eq, not_true_eq_false, false_or]
      unfold init
      simp only [List.length_cons, List.length_nil, ne_eq, not_true_eq_false,
        if_false, FunctionLink_init, Except.map]
      cases hs : H.isA s.getType SCOPE_LINK with
      | false => simp [raised]
      | true =>
        cases hi : H.isA s.getType IMPLICATION_LINK with
        | false => simp [raised]
        | true =>
          simp only [Bool.not_true, Bool.false_eq_true, if_false, if_true,
            false_or, true_and]
          split_ifs with h2 h0 h1 h3 <;> simp only [raised] <;> tauto
  · cases h : init H oset with
    | error e => simp [raised]
    | ok M => simp [raised]

/-- C12, evaluated where the code departs from it: for an implication link
whose scope object reports a body that is neither its first nor its second
outgoing atom (here the body sits inside a lambda), `init` returns a
declaration with `_is_impl` set and `_rewrite` left undefined. -/
theorem init_unassigned_rewrite :
    wrappingHost.isA
      (implication [lambda [var "x", pair [var "x"]], mismatch [var "x"]]).getType
      IMPLICATION_LINK = true ∧
    wrappingHost.get_body
      (implication [lambda [var "x", pair [var "x"]], mismatch [var "x"]]) =
      pair [var "x"] ∧
    ∃ M, init wrappingHost
        [implication [lambda [var "x", pair [var "x"]], mismatch [var "x"]],
          list [pair [num "5"]]] = .ok M ∧
      M._is_impl = true ∧ M._rewrite = Handle.UNDEFINED := by
  refine ⟨by decide, by decide, _, rfl, rfl, rfl⟩

/-! ## Scenarios of the specification -/

/-- The positional substitution of the value `a` for the single variable `x`
in a target `d(x)`. -/
theorem substitutePositional_unary (x a : Atom) (d : Nat)
    (hx : x.isLink = false) :
    substitutePositional [x] (some (.link d [x])) [some a] = some (.link d [a]) := by
  cases x with
  | link c out => simp [Atom.isLink] at hx
  | node c n =>
    simp [substitutePositional, substituteTerm, substituteSeq, valueAt]

/-- A declared variable is a node. -/
theorem isDeclared_node (vars : Variables) (x : Atom)
    (hx : isDeclared vars x = true) : x.isLink = false := by
  cases x with
  | node c n => rfl
  | link c out => rw [isDeclared_link] at hx; exact absurd hx (by decide)

/-- The match of `c(x)` against `c(a)` from the empty grounding. -/
theorem extract_unary (vars : Variables) (x a : Atom) (c : Nat)
    (hx : isDeclared vars x = true) (hc : AType.link c ≠ CHOICE_LINK)
    (hne : a ≠ x) (hacc : vars.is_type x a = true) :
    extract vars (.link c [x]) (.link c [a]) [] = (true, [(x, a)]) := by
  have hne2 : Atom.link c [x] ≠ Atom.link c [a] := by
    intro e
    injection e with _ e2
    injection e2 with e3 _
    exact hne e3.symm
  rw [extract_link vars c [x] _ [] hne2 (isDeclared_link vars c [x]), if_neg hc]
  simp only [Atom.getType, ne_eq, not_true_eq_false, if_false, Atom.getOutgoingSet,
    List.length_cons, List.length_nil]
  rw [extractSeq, extract_declared vars x a [] (fun e => hne e.symm) hx]
  simp [extractVariable, ValMap.find, ValMap.emplace, hacc, extractSeq]

/-- C13, as stated, fails when the tag `c` of the body is the disjunctive
alternative tag: the body `Choice(x)` with target `mismatch(x)` on the input
`Choice(5)` binds `x` to the whole input, not to `5`, and `execute` returns
`mismatch(Choice(5))`. -/
theorem singleton_implication_choice_counterexample :
    choiceDecl._is_impl = true ∧ choiceDecl._vars.varseq = [var "x"] ∧
    isDeclared choiceDecl._vars (var "x") = true ∧
    choiceDecl._vars.is_type (var "x") (num "5") = true ∧
    (choice [num "5"]).getType ≠ LIST_LINK ∧
    (choice [num "5"]).getType ≠ SET_LINK ∧
    execute choiceDecl (choice [num "5"]) =
      some (some (mismatch [choice [num "5"]])) ∧
    execute choiceDecl (choice [num "5"]) ≠ some (some (mismatch [num "5"])) := by
  decide

/-- C13, amended: for an implication-shaped declaration with the single
declared variable `x`, body `c(x)` with `c` neither the disjunctive
alternative, the list nor the set tag, rewrite target `d(x)` and positional
substitution, and for a ground term `a` other than `x` that the scope accepts
for `x`, `execute` on the input `c(a)` returns `d(a)`. -/
theorem execute_singleton_implication (M : MapLink) (x a : Atom) (c d : Nat)
    (himpl : M._is_impl = true) (hseq : M._vars.varseq = [x])
    (hx : isDeclared M._vars x = true)
    (hbody : M.body = .link c [x]) (hrw : M._rewrite = some (.link d [x]))
    (hsub : M._vars.substitute_nocheck = substitutePositional M._vars.varseq)
    (hc : AType.link c ≠ CHOICE_LINK) (hl : AType.link c ≠ LIST_LINK)
    (hs : AType.link c ≠ SET_LINK)
    (hne : a ≠ x) (hacc : M._vars.is_type x a = true) :
    execute M (.link c [a]) = some (some (.link d [a])) := by
  have hext := extract_unary M._vars x a c hx hc hne hacc
  have hty : ¬ ((Atom.link c [a]).getType = SET_LINK ∨
      (Atom.link c [a]).getType = LIST_LINK) := by
    rintro (h | h)
    · exact hs h
    · exact hl h
  unfold execute
  simp only [hty, if_false]
  rw [rewrite_one_eq, hbody, hext, himpl, hsub, hseq, hrw]
  simp only [Bool.true_eq_false, if_false, if_true, List.map_cons, List.map_nil]
  have hf : ValMap.find [(x, a)] x = some a := by simp [ValMap.find, List.lookup]
  rw [hf, substitutePositional_unary x a d (isDeclared_node M._vars x hx)]

/-- Witness of C13, amended, the scenario of the specification:
`Scope({x}, pair(x))` with target `mismatch(x)` on `pair(5)` returns
`mismatch(5)`. -/
theorem execute_singleton_implication_witness :
    execute rewriteDecl (pair [num "5"]) = some (some (mismatch [num "5"])) :=
  execute_singleton_implication rewriteDecl (var "x") (num "5") 20 21 rfl rfl
    (by decide) rfl rfl rfl (by decide) (by decide) (by decide) (by decide) rfl

/-- C14, as stated, fails when the tag `c` is the disjunctive alternative
tag: `Choice(x, x)` matches `Choice(7, 8)` from the empty grounding, binding
`x` to the whole ground term, although `7` and `8` differ. -/
theorem repeated_variable_choice_counterexample :
    isDeclared (anyVars [var "x"]) (var "x") = true ∧
    num "7" ≠ var "x" ∧ num "8" ≠ var "x" ∧
    (anyVars [var "x"]).is_type (var "x") (num "7") = true ∧
    extract (anyVars [var "x"]) (choice [var "x", var "x"])
      (choice [num "7", num "8"]) [] =
      (true, [(var "x", choice [num "7", num "8"])]) ∧
    num "7" ≠ num "8" := by
  decide

/-- C14, amended: for a declared variable `x`, a composite tag `c` other than
the disjunctive alternative tag, and ground terms `a`, `b` other than `x`
with `a` accepted for `x`, `extract(c(x, x), c(a, b))` from the empty
grounding succeeds if and only if `a` and `b` are the same term, and on
success the grounding is exactly `x -> a`. -/
theorem repeated_variable_scenario (vars : Variables) (x a b : Atom) (c : Nat)
    (hx : isDeclared vars x = true) (hc : AType.link c ≠ CHOICE_LINK)
    (ha : a ≠ x) (hb : b ≠ x) (hacc : vars.is_type x a = true) :
    ((extract vars (.link c [x, x]) (.link c [a, b]) []).1 = true ↔ a = b) ∧
    ((extract vars (.link c [x, x]) (.link c [a, b]) []).1 = true →
      (extract vars (.link c [x, x]) (.link c [a, b]) []).2 = [(x, a)]) := by
  have hne2 : Atom.link c [x, x] ≠ Atom.link c [a, b] := by
    intro e
    injection e with _ e2
    injection e2 with e3 _
    exact ha e3.symm
  rw [extract_link vars c [x, x] _ [] hne2 (isDeclared_link vars c [x, x]), if_neg hc]
  simp only [Atom.getType, ne_eq, not_true_eq_false, if_false, Atom.getOutgoingSet,
    List.length_cons, List.length_nil]
  rw [extractSeq, extract_declared vars x a [] (fun e => ha e.symm) hx]
  have h1 : extractVariable vars x a [] = (true, [(x, a)]) := by
    simp [extractVariable, ValMap.find, ValMap.emplace, hacc]
  rw [h1]
  simp only [Bool.not_true, Bool.false_eq_true, if_false]
  rw [extractSeq, extract_declared vars x b _ (fun e => hb e.symm) hx]
  have h2 : extractVariable vars x b [(x, a)] = (decide (a = b), [(x, a)]) := by
    simp [extractVariable, ValMap.find, List.lookup]
  rw [h2]
  by_cases hab : a = b
  · simp [hab, extractSeq]
  · simp [hab]

/-- Witness of C14, amended, the scenario of the specification: `pair(x, x)`
against `pair(7, 7)` succeeds with `x -> 7`. -/
theorem repeated_variable_scenario_witness :
    ((extract (anyVars [var "x"]) (.link 20 [var "x", var "x"])
        (.link 20 [num "7", num "7"]) []).1 = true ↔ num "7" = num "7") ∧
    ((extract (anyVars [var "x"]) (.link 20 [var "x", var "x"])
        (.link 20 [num "7", num "7"]) []).1 = true →
      (extract (anyVars [var "x"]) (.link 20 [var "x", var "x"])
        (.link 20 [num "7", num "7"]) []).2 = [(var "x", num "7")]) :=
  repeated_variable_scenario (anyVars [var "x"]) (var "x") (num "7") (num "7")
    20 (by decide) (by decide) (by decide) (by decide) rfl

/-- The other half of the scenario: `pair(x, x)` against `pair(7, 8)` fails. -/
theorem repeated_variable_scenario_mismatch :
    (extract (anyVars [var "x"]) (pair [var "x", var "x"])
      (pair [num "7", num "8"]) []).1 = false := by
  decide

/-! ## Batch tolerance and tuple indexing -/

/-- When the rewriter returns the undefined handle on every child of a list
or set input, the mapper returns the empty collection of the same type. -/
theorem execute_all_fail (M : MapLink) (c : Nat) (out : List Atom)
    (hty : AType.link c = SET_LINK ∨ AType.link c = LIST_LINK)
    (hfail : ∀ a ∈ out, rewrite_one M a = some Handle.UNDEFINED) :
    execute M (.link c out) = some (some (.link c [])) := by
  have hloop : ∀ (cs remap : List Atom),
      (∀ a ∈ cs, rewrite_one M a = some Handle.UNDEFINED) →
      remapLoop M cs remap = some remap := by
    intro cs
    induction cs with
    | nil => intro remap _; rfl
    | cons a as ih =>
      intro remap h
      rw [remapLoop, h a (List.mem_cons_self _ _)]
      exact ih remap (fun b hb => h b (List.mem_cons_of_mem _ hb))
  unfold execute
  have hty2 : (Atom.link c out).getType = SET_LINK ∨
      (Atom.link c out).getType = LIST_LINK := hty
  rw [if_pos hty2]
  simp [Atom.getOutgoingSet, Atom.getType, hloop out [] hfail, createLink,
    definedSeq]

/-- C15, evaluated where the code departs from it: for the plain declaration
whose scope declares no variable and whose body is `5`, the mapper on the set
input of `5` and `6` has no result at all: the rewriter on the first child
reads the first element of an empty value tuple. -/
theorem execute_set_empty_scope_no_result :
    (setLink [num "5", num "6"]).getType = SET_LINK ∧
    constDecl._is_impl = false ∧
    rewrite_one constDecl (num "5") = none ∧
    execute constDecl (setLink [num "5", num "6"]) = none := by
  decide

/-- C20, evaluated where the code departs from it: for the plain declaration
whose scope declares no variable and whose body is `5`, the rewriter on `5`
reaches its last step (the match succeeds, the tuple is not partial and not
longer than one) with an empty value tuple, so the read of its first element
is outside the tuple. -/
theorem rewrite_one_empty_tuple_read :
    constDecl._is_impl = false ∧ constDecl._vars.varseq = [] ∧
    (extract constDecl._vars constDecl.body (num "5") []).1 = true ∧
    collectValues (extract constDecl._vars constDecl.body (num "5") []).2
      constDecl._vars.varseq (false, []) = (false, []) ∧
    ¬ (1 < ([] : List Handle).length) ∧
    ([] : List Handle)[0]? = none ∧
    rewrite_one constDecl (num "5") = none := by
  decide

/-! ## Invariants of the grounding -/

/-- An unbound key is not among the keys of the map. -/
theorem not_mem_keys_of_find_none (m : ValMap) (k : Atom)
    (h : m.find k = none) : k ∉ m.map Prod.fst := by
  induction m with
  | nil => simp
  | cons p m ih =>
    obtain ⟨k2, v2⟩ := p
    simp only [ValMap.find, List.lookup] at h ih
    by_cases hk : k = k2
    · subst hk; simp at h
    · have hb : (k == k2) = false := by simpa using hk
      rw [hb] at h
      simp only [List.map_cons, List.mem_cons, not_or]
      exact ⟨hk, ih h⟩

/-- An insertion keeps the keys of the map distinct. -/
theorem emplace_nodup (m : ValMap) (k v : Atom)
    (h : (m.map Prod.fst).Nodup) : ((m.emplace k v).map Prod.fst).Nodup := by
  unfold ValMap.emplace
  cases hk : m.find k with
  | some _ => exact h
  | none =>
    simp only [List.map_append, List.map_cons, List.map_nil]
    rw [List.nodup_append]
    refine ⟨h, List.nodup_singleton _, ?_⟩
    intro a ha hb
    have : a = k := by simpa using hb
    subst this
    exact not_mem_keys_of_find_none m a hk ha

/-- The variable branch keeps the keys of the grounding distinct. -/
theorem extractVariable_nodup (vars : Variables) (P G : Atom) (m : ValMap)
    (h : (m.map Prod.fst).Nodup) :
    ((extractVariable vars P G m).2.map Prod.fst).Nodup := by
  unfold extractVariable
  cases hk : m.find P with
  | some _ => exact h
  | none =>
    cases ht : vars.is_type P G with
    | false => simpa using h
    | true => simpa using emplace_nodup m P G h

/-- The matcher keeps the keys of the grounding distinct. -/
theorem extract_nodup (vars : Variables) (P : Atom) :
    ∀ G m, (List.map Prod.fst m).Nodup →
      ((extract vars P G m).2.map Prod.fst).Nodup := by
  induction P using Atom.induct with
  | hn c n =>
    intro G m h
    by_cases he : Atom.node c n = G
    · rw [← he, extract_same]; exact h
    · cases hd : isDeclared vars (Atom.node c n) with
      | true => rw [extract_declared vars _ G m he hd]; exact extractVariable_nodup vars _ G m h
      | false => rw [extract_node vars c n G m he hd]; exact h
  | hl c out ih =>
    intro G m h
    by_cases he : Atom.link c out = G
    · rw [← he, extract_same]; exact h
    · rw [extract_link vars c out G m he (isDeclared_link vars c out)]
      have hchoice : ∀ (alts : List Atom), (∀ a ∈ alts, ∀ G m,
          (List.map Prod.fst m).Nodup →
          ((extract vars a G m).2.map Prod.fst).Nodup) →
          ∀ m, (List.map Prod.fst m).Nodup →
          ((extractChoice vars alts G m).2.map Prod.fst).Nodup := by
        intro alts
        induction alts with
        | nil => intro _ m h; simpa [extractChoice] using h
        | cons a as iha =>
          intro ih2 m h
          have h1 := ih2 a (List.mem_cons_self _ _) G m h
          rw [extractChoice]
          by_cases hr : (extract vars a G m).1 = true
          · simpa [hr] using h1
          · simpa [hr] using iha (fun b hb => ih2 b (List.mem_cons_of_mem _ hb)) _ h1
      have hseq : ∀ (ps : List Atom), (∀ a ∈ ps, ∀ G m,
          (List.map Prod.fst m).Nodup →
          ((extract vars a G m).2.map Prod.fst).Nodup) →
          ∀ gs m, (List.map Prod.fst m).Nodup →
          ((extractSeq vars ps gs m).2.map Prod.fst).Nodup := by
        intro ps
        induction ps with
        | nil => intro _ gs m h; simpa [extractSeq] using h
        | cons a as iha =>
          intro ih2 gs m h
          cases gs with
          | nil => simpa [extractSeq] using h
          | cons g gs =>
            have h1 := ih2 a (List.mem_cons_self _ _) g m h
            rw [extractSeq]
            by_cases hr : (extract vars a g m).1 = true
            · simpa [hr] using iha (fun b hb => ih2 b (List.mem_cons_of_mem _ hb)) gs _ h1
            · simpa [hr] using h1
      split_ifs
      · exact hchoice out ih m h
      · exact h
      · exact h
      · exact hseq out ih _ m h

/-- C16: every binding of the grounding handed to `extract` is still there,
with the same value, in the grounding that `extract` leaves, whether it
returns true or false; a binding found afterwards belongs to a variable that
was unbound or has the value it had; and the keys of the grounding stay
distinct, so it holds at most one value per variable. -/
theorem grounding_never_overwritten (vars : Variables) (P G : Atom) (g : ValMap) :
    (∀ v t, g.find v = some t → (extract vars P G g).2.find v = some t) ∧
    (∀ v t, (extract vars P G g).2.find v = some t →
      g.find v = none ∨ g.find v = some t) ∧
    ((g.map Prod.fst).Nodup → ((extract vars P G g).2.map Prod.fst).Nodup) := by
  refine ⟨fun v t h => extract_keeps vars P G g v t h, ?_, extract_nodup vars P G g⟩
  intro v t h
  cases hg : g.find v with
  | none => exact Or.inl rfl
  | some t2 =>
    right
    have := extract_keeps vars P G g v t2 hg
    rw [h] at this
    rw [this]

/-- Witness of C16: `pair(x, y)` against `pair(7, 8)` from the grounding
`x -> 7`, and a failing match against `pair(9, 8)` from the same grounding. -/
theorem grounding_never_overwritten_witness :
    ((extract (anyVars [var "x", var "y"]) (pair [var "x", var "y"])
        (pair [num "7", num "8"]) [(var "x", num "7")]).2.find (var "x")
      = some (num "7")) ∧
    ((extract (anyVars [var "x", var "y"]) (pair [var "x", var "y"])
        (pair [num "9", num "8"]) [(var "x", num "7")]).2.find (var "x")
      = some (num "7")) ∧
    (((extract (anyVars [var "x", var "y"]) (pair [var "x", var "y"])
        (pair [num "7", num "8"]) [(var "x", num "7")]).2.map Prod.fst).Nodup) :=
  ⟨(grounding_never_overwritten (anyVars [var "x", var "y"])
      (pair [var "x", var "y"]) (pair [num "7", num "8"])
      [(var "x", num "7")]).1 (var "x") (num "7") (by decide),
   (grounding_never_overwritten (anyVars [var "x", var "y"])
      (pair [var "x", var "y"]) (pair [num "9", num "8"])
      [(var "x", num "7")]).1 (var "x") (num "7") (by decide),
   (grounding_never_overwritten (anyVars [var "x", var "y"])
      (pair [var "x", var "y"]) (pair [num "7", num "8"])
      [(var "x", num "7")]).2.2 (by decide)⟩

/-- C19: every binding that is in the grounding after `extract` returns, true
or false, and was not in the grounding before, binds a node of the variable
type that belongs to the varset of the scope to a value that the type
predicate accepts for it; disjunctive alternative nodes in the pattern are
allowed. -/
theorem new_bindings_checked (vars : Variables) (P G : Atom) (g : ValMap)
    (v t : Atom) (hafter : (extract vars P G g).2.find v = some t)
    (hbefore : g.find v ≠ some t) :
    v.getType = VARIABLE_NODE ∧ v.isLink = false ∧ 0 < vars.varset.count v ∧
      vars.is_type v t = true := by
  rcases extract_checked vars P G g v t hafter with h | ⟨hd, ht⟩
  · exact absurd h hbefore
  · have hd2 := hd
    simp only [isDeclared, Bool.and_eq_true, decide_eq_true_eq] at hd2
    exact ⟨hd2.1, isDeclared_node vars v hd, hd2.2, ht⟩

/-- Witness of C19: the binding of `x` left by the failed first alternative
of `Choice(pair(x, 9), pair(7, y))` against `pair(7, 8)`. -/
theorem new_bindings_checked_witness :
    (var "x").getType = VARIABLE_NODE ∧ (var "x").isLink = false ∧
      0 < (anyVars [var "x", var "y"]).varset.count (var "x") ∧
      (anyVars [var "x", var "y"]).is_type (var "x") (num "7") = true :=
  new_bindings_checked (anyVars [var "x", var "y"])
    (choice [pair [var "x", num "9"], pair [num "7", var "y"]])
    (pair [num "7", num "8"]) [] (var "x") (num "7") (by decide) (by decide)

/-! ## Soundness and completeness of the matcher -/

/-- A grounding changes nothing in an atom without declared variables. -/
theorem applyGrounding_variableFree (vars : Variables) (m : ValMap) (P : Atom) :
    variableFree vars P = true → applyGrounding vars m P = P := by
  induction P using Atom.induct with
  | hn c n =>
    intro h
    have hd : isDeclared vars (Atom.node c n) = false := by
      simpa [variableFree] using h
    simp [applyGrounding, hd]
  | hl c out ih =>
    intro h
    have hseq : ∀ (as : List Atom),
        (∀ a ∈ as, variableFree vars a = true → applyGrounding vars m a = a) →
        variableFreeSeq vars as = true → applyGroundingSeq vars m as = as := by
      intro as
      induction as with
      | nil => intro _ _; rfl
      | cons a as iha =>
        intro ih2 hvf
        have hvf2 : variableFree vars a = true ∧ variableFreeSeq vars as = true := by
          simpa [variableFreeSeq] using hvf
        rw [applyGroundingSeq, ih2 a (List.mem_cons_self _ _) hvf2.1,
          iha (fun b hb => ih2 b (List.mem_cons_of_mem _ hb)) hvf2.2]
    rw [applyGrounding, hseq out ih (by simpa [variableFree] using h)]

/-- A declared variable does not occur in an atom without declared
variables. -/
theorem occursIn_variableFree (vars : Variables) (v : Atom)
    (hv : isDeclared vars v = true) (P : Atom) :
    variableFree vars P = true → occursIn v P = false := by
  induction P using Atom.induct with
  | hn c n =>
    intro h
    have hd : isDeclared vars (Atom.node c n) = false := by
      simpa [variableFree] using h
    have hne : v ≠ Atom.node c n := by
      intro e
      rw [e, hd] at hv
      exact absurd hv (by decide)
    simp [occursIn, hne]
  | hl c out ih =>
    intro h
    have hne : v ≠ Atom.link c out := by
      intro e
      rw [e, isDeclared_link] at hv
      exact absurd hv (by decide)
    have hseq : ∀ (as : List Atom),
        (∀ a ∈ as, variableFree vars a = true → occursIn v a = false) →
        variableFreeSeq vars as = true → occursInSeq v as = false := by
      intro as
      induction as with
      | nil => intro _ _; rfl
      | cons a as iha =>
        intro ih2 hvf
        have hvf2 : variableFree vars a = true ∧ variableFreeSeq vars as = true := by
          simpa [variableFreeSeq] using hvf
        rw [occursInSeq, ih2 a (List.mem_cons_self _ _) hvf2.1,
          iha (fun b hb => ih2 b (List.mem_cons_of_mem _ hb)) hvf2.2]
        rfl
    simp [occursIn, hne, hseq out ih (by simpa [variableFree] using h)]

/-- An insertion does not touch the other keys. -/
theorem find_emplace_other (m : ValMap) (k v key : Atom) (hne : key ≠ k) :
    (m.emplace k v).find key = m.find key := by
  unfold ValMap.emplace
  cases hk : m.find k with
  | some _ => rfl
  | none =>
    simp only [ValMap.find]
    rw [List.lookup_append]
    have hb : (key == k) = false := by simpa using hne
    cases hm : List.lookup key m with
    | some w => simp
    | none => simp [List.lookup, hb]

/-- A successful variable branch leaves the variable bound to the ground
term. -/
theorem extractVariable_binds (vars : Variables) (P G : Atom) (m : ValMap)
    (hok : (extractVariable vars P G m).1 = true) :
    (extractVariable vars P G m).2.find P = some G := by
  unfold extractVariable at hok ⊢
  cases hk : m.find P with
  | some w =>
    rw [hk] at hok
    simp only [decide_eq_true_eq] at hok
    simp [hk, hok]
  | none =>
    rw [hk] at hok
    cases ht : vars.is_type P G with
    | false => simp [ht] at hok
    | true => simpa [ht] using find_emplace_self m P G hk

/-- Soundness of the side-by-side loop, given soundness for the atoms of the
pattern sequence. -/
theorem extractSeq_sound (vars : Variables) (ps : List Atom)
    (ih : ∀ a ∈ ps, choiceFree a = true → ∀ G m, variableFree vars G = true →
      (extract vars a G m).1 = true →
      (∀ v, isDeclared vars v = true → occursIn v a = true →
        ∃ t, (extract vars a G m).2.find v = some t) ∧
      (∀ m2 : ValMap, (∀ k t, (extract vars a G m).2.find k = some t →
        m2.find k = some t) → applyGrounding vars m2 a = G)) :
    choiceFreeSeq ps = true → ∀ gs m, variableFreeSeq vars gs = true →
      gs.length = ps.length → (extractSeq vars ps gs m).1 = true →
      (∀ v, isDeclared vars v = true → occursInSeq v ps = true →
        ∃ t, (extractSeq vars ps gs m).2.find v = some t) ∧
      (∀ m2 : ValMap, (∀ k t, (extractSeq vars ps gs m).2.find k = some t →
        m2.find k = some t) → applyGroundingSeq vars m2 ps = gs) := by
  induction ps with
  | nil =>
    intro _ gs m _ hlen _
    have hgs : gs = [] := List.length_eq_zero.mp hlen
    subst hgs
    exact ⟨fun v _ ho => by simp [occursInSeq] at ho, fun _ _ => rfl⟩
  | cons a as iha =>
    intro hcf gs m hvf hlen hok
    have hcf2 : choiceFree a = true ∧ choiceFreeSeq as = true := by
      simpa [choiceFreeSeq] using hcf
    cases gs with
    | nil => simp at hlen
    | cons g gs =>
      have hvf2 : variableFree vars g = true ∧ variableFreeSeq vars gs = true := by
        simpa [variableFreeSeq] using hvf
      have hlen2 : gs.length = as.length := by simpa using hlen
      rw [extractSeq] at hok ⊢
      by_cases hr : (extract vars a g m).1 = true
      · simp only [hr, Bool.not_true, Bool.false_eq_true, if_false] at hok ⊢
        obtain ⟨hb1, ha1⟩ := ih a (List.mem_cons_self _ _) hcf2.1 g m hvf2.1 hr
        obtain ⟨hb2, ha2⟩ := iha (fun b hb => ih b (List.mem_cons_of_mem _ hb))
          hcf2.2 gs _ hvf2.2 hlen2 hok
        have hkeep : ∀ k t, (extract vars a g m).2.find k = some t →
            (extractSeq vars as gs (extract vars a g m).2).2.find k = some t :=
          fun k t h => extractSeq_keeps vars as
            (fun b _ => extract_keeps vars b) gs _ k t h
        constructor
        · intro v hv ho
          rw [occursInSeq, Bool.or_eq_true] at ho
          rcases ho with ho | ho
          · obtain ⟨t, ht⟩ := hb1 v hv ho
            exact ⟨t, hkeep v t ht⟩
          · exact hb2 v hv ho
        · intro m2 hm2
          rw [applyGroundingSeq, ha1 m2 (fun k t h => hm2 k t (hkeep k t h)),
            ha2 m2 hm2]
      · simp [hr] at hok

/-- Soundness of the matcher from any grounding: after a successful match of
a pattern without disjunctive alternative nodes against a ground term without
declared variables, every declared variable of the pattern is bound, and any
grounding that extends the resulting one turns the pattern into the ground
term. -/
theorem extract_sound_from (vars : Variables) (P : Atom) :
    choiceFree P = true → ∀ G m, variableFree vars G = true →
      (extract vars P G m).1 = true →
      (∀ v, isDeclared vars v = true → occursIn v P = true →
        ∃ t, (extract vars P G m).2.find v = some t) ∧
      (∀ m2 : ValMap, (∀ k t, (extract vars P G m).2.find k = some t →
        m2.find k = some t) → applyGrounding vars m2 P = G) := by
  induction P using Atom.induct with
  | hn c n =>
    intro _ G m hvf hok
    by_cases he : Atom.node c n = G
    · constructor
      · intro v hv ho
        rw [he, occursIn_variableFree vars v hv G hvf] at ho
        exact absurd ho (by decide)
      · intro m2 _
        rw [he]
        exact applyGrounding_variableFree vars m2 G hvf
    · cases hd : isDeclared vars (Atom.node c n) with
      | false =>
        rw [extract_node vars c n G m he hd] at hok
        exact absurd hok (by simp)
      | true =>
        rw [extract_declared vars _ G m he hd] at hok ⊢
        have hb := extractVariable_binds vars _ G m hok
        constructor
        · intro v _ ho
          have hv2 : v = Atom.node c n := by simpa [occursIn] using ho
          rw [hv2]
          exact ⟨G, hb⟩
        · intro m2 hm2
          simp [applyGrounding, hd, hm2 _ _ hb]
  | hl c out ih =>
    intro hcf G m hvf hok
    have hcf2 : AType.link c ≠ CHOICE_LINK ∧ choiceFreeSeq out = true := by
      simpa [choiceFree] using hcf
    by_cases he : Atom.link c out = G
    · constructor
      · intro v hv ho
        rw [he, occursIn_variableFree vars v hv G hvf] at ho
        exact absurd ho (by decide)
      · intro m2 _
        rw [he]
        exact applyGrounding_variableFree vars m2 G hvf
    · rw [extract_link vars c out G m he (isDeclared_link vars c out),
        if_neg hcf2.1] at hok ⊢
      by_cases hty : AType.link c ≠ G.getType
      · simp [hty] at hok
      · rw [if_neg hty] at hok ⊢
        by_cases hlen : G.getOutgoingSet.length ≠ out.length
        · simp [hlen] at hok
        · rw [if_neg hlen] at hok ⊢
          cases G with
          | node c2 n2 => simp [Atom.getType] at hty
          | link c2 glo =>
            have hc : c = c2 := by simpa [Atom.getType] using hty
            subst hc
            have hlen2 : glo.length = out.length := by
              simpa [Atom.getOutgoingSet] using hlen
            have hvf2 : variableFreeSeq vars glo = true := by
              simpa [variableFree] using hvf
            obtain ⟨hb, ha⟩ := extractSeq_sound vars out ih hcf2.2 glo m hvf2
              hlen2 hok
            constructor
            · intro v hv ho
              have hne : v ≠ Atom.link c out := by
                intro e
                rw [e, isDeclared_link] at hv
                exact absurd hv (by decide)
              have ho2 : occursInSeq v out = true := by
                simpa [occursIn, hne] using ho
              exact hb v hv ho2
            · intro m2 hm2
              rw [applyGrounding, ha m2 hm2]

/-- C17: for a pattern `P` without disjunctive alternative nodes and a ground
term `G` without declared variables, if `extract(P, G)` from the empty
grounding succeeds with the grounding `m`, then every declared variable that
occurs in `P` is bound in `m`, and replacing the declared variables of `P` by
their values in `m` yields exactly `G`. -/
theorem extract_sound (vars : Variables) (P G : Atom)
    (hP : choiceFree P = true) (hG : variableFree vars G = true)
    (hok : (extract vars P G []).1 = true) :
    (∀ v, isDeclared vars v = true → occursIn v P = true →
      ∃ t, (extract vars P G []).2.find v = some t) ∧
    applyGrounding vars (extract vars P G []).2 P = G := by
  obtain ⟨hb, ha⟩ := extract_sound_from vars P hP G [] hG hok
  exact ⟨hb, ha _ (fun _ _ h => h)⟩

/-- Witness of C17: `pair(x, pair(y, x))` against `pair(7, pair(8, 7))`. -/
theorem extract_sound_witness :
    (∀ v, isDeclared (anyVars [var "x", var "y"]) v = true →
      occursIn v (pair [var "x", pair [var "y", var "x"]]) = true →
      ∃ t, (extract (anyVars [var "x", var "y"])
        (pair [var "x", pair [var "y", var "x"]])
        (pair [num "7", pair [num "8", num "7"]]) []).2.find v = some t) ∧
    applyGrounding (anyVars [var "x", var "y"])
      (extract (anyVars [var "x", var "y"])
        (pair [var "x", pair [var "y", var "x"]])
        (pair [num "7", pair [num "8", num "7"]]) []).2
      (pair [var "x", pair [var "y", var "x"]]) =
      pair [num "7", pair [num "8", num "7"]] :=
  extract_sound (anyVars [var "x", var "y"])
    (pair [var "x", pair [var "y", var "x"]])
    (pair [num "7", pair [num "8", num "7"]]) (by decide) (by decide) (by decide)

/-- An assignment keeps the length of an outgoing set. -/
theorem applyAssignmentSeq_length (vars : Variables) (s : Atom → Atom)
    (as : List Atom) : (applyAssignmentSeq vars s as).length = as.length := by
  induction as with
  | nil => rfl
  | cons a as ih => simp [applyAssignmentSeq, ih]

/-- Completeness of the side-by-side loop, given completeness for the atoms
of the pattern sequence. -/
theorem extractSeq_complete (vars : Variables) (s : Atom → Atom) (ps : List Atom)
    (ih : ∀ a ∈ ps, choiceFree a = true → ∀ m : ValMap,
      variableFree vars (applyAssignment vars s a) = true →
      (∀ v, isDeclared vars v = true → occursIn v a = true →
        vars.is_type v (s v) = true) →
      (∀ k t, m.find k = some t → t = s k) →
      (extract vars a (applyAssignment vars s a) m).1 = true ∧
      ∀ k, (extract vars a (applyAssignment vars s a) m).2.find k =
        if (isDeclared vars k && occursIn k a) = true then some (s k)
        else m.find k) :
    choiceFreeSeq ps = true → ∀ m : ValMap,
      variableFreeSeq vars (applyAssignmentSeq vars s ps) = true →
      (∀ v, isDeclared vars v = true → occursInSeq v ps = true →
        vars.is_type v (s v) = true) →
      (∀ k t, m.find k = some t → t = s k) →
      (extractSeq vars ps (applyAssignmentSeq vars s ps) m).1 = true ∧
      ∀ k, (extractSeq vars ps (applyAssignmentSeq vars s ps) m).2.find k =
        if (isDeclared vars k && occursInSeq k ps) = true then some (s k)
        else m.find k := by
  induction ps with
  | nil =>
    intro _ m _ _ _
    simp [applyAssignmentSeq, extractSeq, occursInSeq]
  | cons a as iha =>
    intro hcf m hvf hacc hagree
    have hcf2 : choiceFree a = true ∧ choiceFreeSeq as = true := by
      simpa [choiceFreeSeq] using hcf
    have hvf2 : variableFree vars (applyAssignment vars s a) = true ∧
        variableFreeSeq vars (applyAssignmentSeq vars s as) = true := by
      simpa [applyAssignmentSeq, variableFreeSeq] using hvf
    obtain ⟨h1, hf1⟩ := ih a (List.mem_cons_self _ _) hcf2.1 m hvf2.1
      (fun v hv ho => hacc v hv (by simp [occursInSeq, ho])) hagree
    have hagree1 : ∀ k t,
        (extract vars a (applyAssignment vars s a) m).2.find k = some t →
        t = s k := by
      intro k t h
      rw [hf1 k] at h
      split_ifs at h
      · exact (Option.some.inj h).symm
      · exact hagree k t h
    obtain ⟨h2, hf2⟩ := iha (fun b hb => ih b (List.mem_cons_of_mem _ hb)) hcf2.2
      (extract vars a (applyAssignment vars s a) m).2 hvf2.2
      (fun v hv ho => hacc v hv (by simp [occursInSeq, ho])) hagree1
    rw [applyAssignmentSeq, extractSeq]
    simp only [h1, Bool.not_true, Bool.false_eq_true, if_false]
    refine ⟨h2, fun k => ?_⟩
    rw [hf2 k, hf1 k]
    cases hd : isDeclared vars k <;> cases ha : occursIn k a <;>
      cases hs : occursInSeq k as <;> simp [occursInSeq, ha, hs]

/-- Completeness of the matcher from any grounding that agrees with the
assignment: the match of a pattern against its instance succeeds and binds
exactly the declared variables of the pattern, to their assigned values, on
top of the incoming bindings. -/
theorem extract_complete_from (vars : Variables) (s : Atom → Atom) (P : Atom) :
    choiceFree P = true → ∀ m : ValMap,
      variableFree vars (applyAssignment vars s P) = true →
      (∀ v, isDeclared vars v = true → occursIn v P = true →
        vars.is_type v (s v) = true) →
      (∀ k t, m.find k = some t → t = s k) →
      (extract vars P (applyAssignment vars s P) m).1 = true ∧
      ∀ k, (extract vars P (applyAssignment vars s P) m).2.find k =
        if (isDeclared vars k && occursIn k P) = true then some (s k)
        else m.find k := by
  have hident : ∀ (P : Atom) (m : ValMap),
      variableFree vars (applyAssignment vars s P) = true →
      P = applyAssignment vars s P →
      (extract vars P (applyAssignment vars s P) m).1 = true ∧
      ∀ k, (extract vars P (applyAssignment vars s P) m).2.find k =
        if (isDeclared vars k && occursIn k P) = true then some (s k)
        else m.find k := by
    intro P m hvf he
    rw [← he] at hvf ⊢
    rw [extract_same]
    refine ⟨rfl, fun k => ?_⟩
    cases hk : isDeclared vars k with
    | false => simp
    | true => simp [occursIn_variableFree vars k hk P hvf]
  induction P using Atom.induct with
  | hn c n =>
    intro _ m hvf hacc hagree
    by_cases he : Atom.node c n = applyAssignment vars s (Atom.node c n)
    · exact hident _ m hvf he
    · cases hd : isDeclared vars (Atom.node c n) with
      | false => exact absurd (by simp [applyAssignment, hd]) he
      | true =>
        have hG : applyAssignment vars s (Atom.node c n) = s (Atom.node c n) := by
          simp [applyAssignment, hd]
        rw [hG] at he ⊢
        rw [extract_declared vars _ _ m he hd]
        have hty : vars.is_type (Atom.node c n) (s (Atom.node c n)) = true :=
          hacc _ hd (by simp [occursIn])
        unfold extractVariable
        cases hk : m.find (Atom.node c n) with
        | some t =>
          have ht : t = s (Atom.node c n) := hagree _ t hk
          subst ht
          refine ⟨by simp, fun k => ?_⟩
          by_cases hkk : k = Atom.node c n
          · subst hkk; simp [hd, occursIn, hk]
          · simp [occursIn, hkk]
        | none =>
          simp only [hty, Bool.not_true, Bool.false_eq_true, if_false]
          refine ⟨trivial, fun k => ?_⟩
          by_cases hkk : k = Atom.node c n
          · subst hkk
            simp [hd, occursIn, find_emplace_self m _ _ hk]
          · simp [occursIn, hkk, find_emplace_other m _ _ k hkk]
  | hl c out ih =>
    intro hcf m hvf hacc hagree
    have hcf2 : AType.link c ≠ CHOICE_LINK ∧ choiceFreeSeq out = true := by
      simpa [choiceFree] using hcf
    by_cases he : Atom.link c out = applyAssignment vars s (Atom.link c out)
    · exact hident _ m hvf he
    · have hG : applyAssignment vars s (Atom.link c out) =
          Atom.link c (applyAssignmentSeq vars s out) := by
        rw [applyAssignment]
      rw [hG] at he hvf ⊢
      have hvf2 : variableFreeSeq vars (applyAssignmentSeq vars s out) = true := by
        simpa [variableFree] using hvf
      have hocc : ∀ k, isDeclared vars k = true →
          occursIn k (Atom.link c out) = occursInSeq k out := by
        intro k hk
        have hne : k ≠ Atom.link c out := by
          intro e
          rw [e, isDeclared_link] at hk
          exact absurd hk (by decide)
        simp [occursIn, hne]
      obtain ⟨h1, hf1⟩ := extractSeq_complete vars s out ih hcf2.2 m hvf2
        (fun v hv ho => hacc v hv (by rw [hocc v hv]; exact ho)) hagree
      rw [extract_link vars c out _ m he (isDeclared_link vars c out),
        if_neg hcf2.1]
      simp only [Atom.getType, ne_eq, not_true_eq_false, if_false,
        Atom.getOutgoingSet, applyAssignmentSeq_length]
      refine ⟨h1, fun k => ?_⟩
      rw [hf1 k]
      cases hk : isDeclared vars k with
      | false => simp
      | true => simp [hocc k hk]

/-- C18: for a pattern `P` without disjunctive alternative nodes, a ground
term `G` without declared variables, and an assignment `s` whose values are
accepted for the declared variables occurring in `P` and which turns `P` into
`G`, `extract(P, G)` from the empty grounding succeeds, and the resulting
grounding binds exactly the declared variables occurring in `P`, each to its
value under `s`. -/
theorem extract_complete (vars : Variables) (s : Atom → Atom) (P G : Atom)
    (hP : choiceFree P = true) (hG : variableFree vars G = true)
    (hacc : ∀ v, isDeclared vars v = true → occursIn v P = true →
      vars.is_type v (s v) = true)
    (hsub : applyAssignment vars s P = G) :
    (extract vars P G []).1 = true ∧
    ∀ v, (extract vars P G []).2.find v =
      if (isDeclared vars v && occursIn v P) = true then some (s v) else none := by
  subst hsub
  exact extract_complete_from vars s P hP [] hG hacc
    (fun k t h => by simp [ValMap.find] at h)

/-- Witness of C18: `pair(x, pair(y, x))` under the assignment `x -> 7`,
`y -> 8`. -/
theorem extract_complete_witness :
    (extract (anyVars [var "x", var "y"])
      (pair [var "x", pair [var "y", var "x"]])
      (pair [num "7", pair [num "8", num "7"]]) []).1 = true ∧
    ∀ v, (extract (anyVars [var "x", var "y"])
      (pair [var "x", pair [var "y", var "x"]])
      (pair [num "7", pair [num "8", num "7"]]) []).2.find v =
      if (isDeclared (anyVars [var "x", var "y"]) v &&
          occursIn v (pair [var "x", pair [var "y", var "x"]])) = true
      then some ((fun a => if a = var "x" then num "7" else num "8") v)
      else none :=
  extract_complete (anyVars [var "x", var "y"])
    (fun a => if a = var "x" then num "7" else num "8")
    (pair [var "x", pair [var "y", var "x"]])
    (pair [num "7", pair [num "8", num "7"]]) (by decide) (by decide)
    (fun _ _ _ => rfl) (by decide)

end MapLinkSpec
